import Mathlib

/-!
Verification development for the chatOxaion incremental indexing pipeline
(`src/query.py`).  The Python source is shallowly embedded: strings become
`List Char` / `String`, the regex-based text transforms of `clean_text` are
implemented as character scanners with the exact matching semantics of the
Python `re` patterns (leftmost match, lazy/greedy quantifier resolution,
MULTILINE anchors), `hashlib.md5(...).hexdigest()` is implemented bit-for-bit
over UTF-8 bytes, and the stateful `build_index` becomes a pure fold over an
explicit collection/manifest state that also records every embedding call and
every vector-collection write.

Scope notes for the embedding:
* Character classes are modelled in full: `\s` and `str.strip` use Python's
  complete (Unicode) whitespace set, `str.splitlines` uses Python's line-break
  set.
* External libraries keep their interface: JSON parsing (for the manifest) is
  a parameter returning `Option`, the embedding backends (Ollama HTTP call,
  SentenceTransformers model) are parameters delivering raw vectors, and the
  numpy float arithmetic of `_embed_texts` is modelled in exact real
  arithmetic.
-/

/-- Python whitespace as matched by `re`'s `\s` on `str` patterns and stripped
by `str.strip()`: the characters for which `str.isspace()` holds (tab through
carriage return, the information separators 1C-1F, space, next line 85, no-break
space A0, ogham space 1680, the 2000-200A spaces, the 2028/2029 separators,
narrow no-break space 202F, mathematical space 205F, ideographic space 3000). -/
def isPyWs (c : Char) : Bool :=
  c == ' ' || c == '\t' || c == '\n' || c == '\r' || c == '\x0b' || c == '\x0c' ||
  c == '\x1c' || c == '\x1d' || c == '\x1e' || c == '\x1f' ||
  c == '\x85' || c == '\xa0' || c == '\u1680' ||
  (decide (0x2000 ≤ c.toNat) && decide (c.toNat ≤ 0x200a)) ||
  c == '\u2028' || c == '\u2029' || c == '\u202f' || c == '\u205f' || c == '\u3000'

/-- Python `str.strip()` on a character list. -/
def pyStripList (l : List Char) : List Char :=
  ((l.dropWhile isPyWs).reverse.dropWhile isPyWs).reverse

/-- Python `str.strip()`. -/
def pyStrip (s : String) : String := ⟨pyStripList s.data⟩

/-! ### `clean_text` pass 1: keep from the first real heading onward

`re.search(r'^\s*#\s+.+', text, flags=re.MULTILINE)`; if it matches, the text
is truncated to start at the match start (a line start, since `^` anchors the
match there and `\s*` is the first thing matched). -/

/-- Does `\s*#\s+.+` match when anchored at this position?  After the `#` the
pattern needs at least one whitespace character and then (possibly after more
whitespace, by backtracking of the greedy `\s+`) one character that is not a
newline (`.` does not match `\n`). -/
def matchHeadAt (l : List Char) : Bool :=
  match l.dropWhile isPyWs with
  | '#' :: t =>
    let w := t.takeWhile isPyWs
    !w.isEmpty && (!(t.drop w.length).isEmpty || (w.drop 1).any (fun c => c != '\n'))
  | _ => false

/-- Walk the text position by position, tracking whether the position is a
line start (`^` in MULTILINE mode); return the suffix starting at the first
line start where the heading pattern matches. -/
def truncGo : List Char → Bool → Option (List Char)
  | [], _ => none
  | c :: t, atStart =>
    if atStart && matchHeadAt (c :: t) then some (c :: t)
    else truncGo t (c == '\n')

/-- `clean_text` step: truncate at the first heading match (keep everything
when there is no match). -/
def truncAtHeading (l : List Char) : List Char := (truncGo l true).getD l

/-! ### `clean_text` pass 2: remove image links `!\[.*?\]\(.*?\)` -/

/-- Scan for the first `](`, consuming lazy `.*?` characters (which may not be
newlines); returns the remainder after the `](`. -/
def findCloseBr : List Char → Option (List Char)
  | ']' :: '(' :: rest => some rest
  | '\n' :: _ => none
  | _ :: t => findCloseBr t
  | [] => none

/-- Scan for the first `)`, consuming lazy `.*?` characters (no newlines);
returns the remainder after the `)`. -/
def findParen : List Char → Option (List Char)
  | ')' :: rest => some rest
  | '\n' :: _ => none
  | _ :: t => findParen t
  | [] => none

/-- `re.sub(r'!\[.*?\]\(.*?\)', '', text)` as a fuelled scanner (fuel bounds
the number of scan steps; `length + 1` always suffices). -/
def imageSubF : Nat → List Char → List Char
  | 0, l => l
  | _ + 1, [] => []
  | fuel + 1, '!' :: '[' :: rest =>
    match findCloseBr rest with
    | some r2 =>
      match findParen r2 with
      | some r3 => imageSubF fuel r3
      | none => '!' :: imageSubF fuel ('[' :: rest)
    | none => '!' :: imageSubF fuel ('[' :: rest)
  | fuel + 1, c :: t => c :: imageSubF fuel t

def imageSub (l : List Char) : List Char := imageSubF (l.length + 1) l

/-! ### `clean_text` pass 3: remove login links (case-insensitive) -/

/-- ASCII lower-casing, as used by `re.IGNORECASE` on the patterns here. -/
def lowerCh (c : Char) : Char :=
  if 'A' ≤ c && c ≤ 'Z' then Char.ofNat (c.toNat + 32) else c

/-- Case-insensitively strip a literal word; `some rest` on success. -/
def stripCi : List Char → List Char → Option (List Char)
  | [], l => some l
  | _ :: _, [] => none
  | w :: ws, c :: cs => if lowerCh c == lowerCh w then stripCi ws cs else none

/-- After an opening `[`, try to match `(?:Anmelden|Login|Abmelden)\]\(.*?\)`. -/
def tryLoginWord (w : List Char) (l : List Char) : Option (List Char) :=
  match stripCi w l with
  | some (']' :: '(' :: r) => findParen r
  | _ => none

def tryLogin (l : List Char) : Option (List Char) :=
  match tryLoginWord "Anmelden".data l with
  | some r => some r
  | none =>
    match tryLoginWord "Login".data l with
    | some r => some r
    | none => tryLoginWord "Abmelden".data l

/-- `re.sub(r'\[(?:Anmelden|Login|Abmelden)\]\(.*?\)', '', text, flags=re.IGNORECASE)`. -/
def loginSubF : Nat → List Char → List Char
  | 0, l => l
  | _ + 1, [] => []
  | fuel + 1, '[' :: rest =>
    match tryLogin rest with
    | some r => loginSubF fuel r
    | none => '[' :: loginSubF fuel rest
  | fuel + 1, c :: t => c :: loginSubF fuel t

def loginSub (l : List Char) : List Char := loginSubF (l.length + 1) l

/-! ### `clean_text` pass 4: remove menu-like bullet links

`re.sub(r'^[ \t]*[\*\-•]\s*\[.*?\]\(.*?\).*$', '', text, flags=re.MULTILINE)`.
`^` anchors at line starts; after the bullet character the greedy `\s*` must
end exactly at a `[` (backtracking is deterministic because `[` is not
whitespace); the trailing `.*$` consumes the rest of the line, so the match
always ends immediately before a newline (or at the end of the text). -/

def tryBullet (l : List Char) : Option (List Char) :=
  match l.dropWhile (fun c => c == ' ' || c == '\t') with
  | b :: r2 =>
    if b == '*' || b == '-' || b == '•' then
      match r2.dropWhile isPyWs with
      | '[' :: r3 =>
        match findCloseBr r3 with
        | some r4 =>
          match findParen r4 with
          | some r5 => some (r5.dropWhile (fun c => c != '\n'))
          | none => none
        | none => none
      | _ => none
    else none
  | [] => none

def bulletSubF : Nat → List Char → Bool → List Char
  | 0, l, _ => l
  | _ + 1, [], _ => []
  | fuel + 1, c :: t, atStart =>
    if atStart then
      match tryBullet (c :: t) with
      | some rest => bulletSubF fuel rest false
      | none => c :: bulletSubF fuel t (c == '\n')
    else c :: bulletSubF fuel t (c == '\n')

def bulletSub (l : List Char) : List Char := bulletSubF (l.length + 1) l true

/-! ### `clean_text` pass 5: remove boilerplate tokens

`re.sub(r'(Onlinehilfe|Tastenkombinationen|Feed\-Builder|Suche\s*\.{3})', '',
text, flags=re.IGNORECASE)`.  The four alternatives start with distinct
letters, so at each position at most one branch can fire; in the `Suche`
branch the greedy `\s*` must end exactly at the first of the three literal
dots. -/

def tryToken (l : List Char) : Option (List Char) :=
  match stripCi "Onlinehilfe".data l with
  | some r => some r
  | none =>
    match stripCi "Tastenkombinationen".data l with
    | some r => some r
    | none =>
      match stripCi "Feed-Builder".data l with
      | some r => some r
      | none =>
        match stripCi "Suche".data l with
        | some r =>
          match r.dropWhile isPyWs with
          | '.' :: '.' :: '.' :: r2 => some r2
          | _ => none
        | none => none

def tokenSubF : Nat → List Char → List Char
  | 0, l => l
  | _ + 1, [] => []
  | fuel + 1, c :: t =>
    match tryToken (c :: t) with
    | some r => tokenSubF fuel r
    | none => c :: tokenSubF fuel t

def tokenSub (l : List Char) : List Char := tokenSubF (l.length + 1) l

/-! ### `clean_text` pass 6: remove empty anchor lines

`re.sub(r'^\s*\[\]\(.*?\)\s*$', '', text, flags=re.MULTILINE)`.  The lazy
`.*?` backtracks across `)` characters until the trailing `\s*$` can match;
`$` (MULTILINE) matches at the end of the text or immediately before a
newline, and the greedy trailing `\s*` therefore consumes up to the last
newline of the whitespace run that follows (or the whole run when it reaches
the end of the text). -/

/-- Split a whitespace run at its last newline: `some (before, fromNl)` with
`w = before ++ fromNl` and `fromNl` starting with the last `'\n'` of `w`. -/
def lastNlSplit : List Char → Option (List Char × List Char)
  | [] => none
  | c :: t =>
    match lastNlSplit t with
    | some (a, b) => some (c :: a, b)
    | none => if c == '\n' then some ([], c :: t) else none

/-- Resolve `\s*$` after the closing paren: `some (rest, atLineStart)` where
`rest` is the text remaining after the match and `atLineStart` says whether
the character preceding `rest` in the original text was a newline. -/
def anchorClose (r5 : List Char) : Option (List Char × Bool) :=
  let w := r5.takeWhile isPyWs
  let rest := r5.drop w.length
  if rest.isEmpty then some ([], false)
  else
    match lastNlSplit w with
    | some (consumed, remainder) =>
      some (remainder ++ rest, consumed.getLast? == some '\n')
    | none => none

/-- Scan `.*?\)\s*$` after the literal `[](`: try each `)` in order (lazy),
aborting on a newline or the end of the text. -/
def anchorTail : List Char → Option (List Char × Bool)
  | ')' :: r5 =>
    match anchorClose r5 with
    | some res => some res
    | none => anchorTail r5
  | '\n' :: _ => none
  | [] => none
  | _ :: t => anchorTail t

/-- Try the whole anchor-line pattern at a line start. -/
def tryAnchorAt (l : List Char) : Option (List Char × Bool) :=
  match l.dropWhile isPyWs with
  | '[' :: ']' :: '(' :: r3 => anchorTail r3
  | _ => none

def anchorSubF : Nat → List Char → Bool → List Char
  | 0, l, _ => l
  | _ + 1, [], _ => []
  | fuel + 1, c :: t, atStart =>
    if atStart then
      match tryAnchorAt (c :: t) with
      | some (rest, restStart) => anchorSubF fuel rest restStart
      | none => c :: anchorSubF fuel t (c == '\n')
    else c :: anchorSubF fuel t (c == '\n')

def anchorSub (l : List Char) : List Char := anchorSubF (l.length + 1) l true

/-! ### `clean_text` passes 7 and 8: collapse blank runs, strip -/

/-- `re.sub(r'\n{2,}', '\n\n', text)`: every maximal run of `n ≥ 2` newlines
is replaced by exactly two.  Single-pass scanner carrying the count of
pending newlines. -/
def collapseGo : List Char → Nat → List Char
  | [], n => List.replicate (min n 2) '\n'
  | '\n' :: t, n => collapseGo t (n + 1)
  | c :: t, n => List.replicate (min n 2) '\n' ++ c :: collapseGo t 0

def collapseNewlines (l : List Char) : List Char := collapseGo l 0

/-- `clean_text` from `src/query.py`: heading truncation, image-link removal,
login-link removal, bullet-link-line removal, boilerplate-token removal,
anchor-line removal, blank-line collapsing, strip. -/
def cleanTextList (l : List Char) : List Char :=
  pyStripList (collapseNewlines (anchorSub (tokenSub (bulletSub
    (loginSub (imageSub (truncAtHeading l)))))))

def cleanText (s : String) : String := ⟨cleanTextList s.data⟩

/-! ### `chunk_markdown` -/

/-- Line boundaries recognised by Python `str.splitlines`. -/
def isLineBrk (c : Char) : Bool :=
  c == '\n' || c == '\r' || c == '\x0b' || c == '\x0c' || c == '\x1c' ||
  c == '\x1d' || c == '\x1e' || c == '\x85' || c == '\u2028' || c == '\u2029'

def splitLinesGo : List Char → List Char → List String
  | [], acc => if acc.isEmpty then [] else [⟨acc.reverse⟩]
  | '\r' :: '\n' :: t, acc => (⟨acc.reverse⟩ : String) :: splitLinesGo t []
  | c :: t, acc =>
    if isLineBrk c then (⟨acc.reverse⟩ : String) :: splitLinesGo t []
    else splitLinesGo t (c :: acc)

/-- Python `str.splitlines()`. -/
def splitLines (s : String) : List String := splitLinesGo s.data []

/-- `re.match(r'^\s*#+\s+', line)`: optional whitespace, one or more `#`,
then at least one whitespace character. -/
def isHeadingLine (s : String) : Bool :=
  match s.data.dropWhile isPyWs with
  | '#' :: t =>
    match t.dropWhile (fun c => c == '#') with
    | c :: _ => isPyWs c
    | [] => false
  | _ => false

/-- `clean_text("\n".join(current_lines).strip())`; the accumulator holds the
lines in reverse order. -/
def flushBody (accRev : List String) : String :=
  cleanText (pyStrip (String.intercalate "\n" accRev.reverse))

/-- One step of the `chunk_markdown` loop.  State: chunks emitted so far,
`current_title` (`none` = Python `None`), accumulated body lines (reversed).
The flush at a heading requires both `current_lines` and `current_title` to
be truthy (non-empty / not `None`). -/
def chunkStep (st : List (String × String) × Option String × List String)
    (line : String) : List (String × String) × Option String × List String :=
  let (chunks, ct, acc) := st
  if isHeadingLine line then
    let chunks' :=
      match ct with
      | some t =>
        if !acc.isEmpty && t != "" then chunks ++ [(t, flushBody acc)] else chunks
      | none => chunks
    (chunks', some (pyStrip line), [])
  else
    (chunks, ct, line :: acc)

/-- `chunk_markdown` from `src/query.py`: split by heading lines, clean each
body, default the title to `"# Inhalt"` for the final flush when no heading
was in force, drop chunks with empty cleaned bodies. -/
def chunkMarkdown (md : String) : List (String × String) :=
  let st := (splitLines md).foldl chunkStep ([], none, [])
  let chunks :=
    if st.2.2.isEmpty then st.1
    else
      st.1 ++ [(match st.2.1 with
                | none => "# Inhalt"
                | some t => if t == "" then "# Inhalt" else t,
                flushBody st.2.2)]
  chunks.filter (fun p => p.2 != "")

/-! ### Decimal rendering of the chunk ordinal (Python `str(idx)`) -/

/-- Little-endian decimal digits (`[]` for `0`); fuelled so that the function
is structurally recursive (fuel `n + 1` always suffices since the argument
shrinks by a factor of ten each step). -/
def decDigitsF : Nat → Nat → List Nat
  | 0, _ => []
  | fuel + 1, n => if n == 0 then [] else n % 10 :: decDigitsF fuel (n / 10)

def decDigits (n : Nat) : List Nat := decDigitsF (n + 1) n

/-- Python `str` of a non-negative integer (decimal notation). -/
def natDec (n : Nat) : String :=
  if n == 0 then "0"
  else ⟨((decDigits n).map (fun d => Char.ofNat (48 + d))).reverse⟩

/-! ### MD5 (`hashlib.md5(...).hexdigest()` over the UTF-8 encoding) -/

/-- UTF-8 encoding of one character (list of byte values). -/
def utf8Ch (c : Char) : List Nat :=
  let n := c.toNat
  if n < 0x80 then [n]
  else if n < 0x800 then [0xc0 + n / 0x40, 0x80 + n % 0x40]
  else if n < 0x10000 then
    [0xe0 + n / 0x1000, 0x80 + n / 0x40 % 0x40, 0x80 + n % 0x40]
  else
    [0xf0 + n / 0x40000, 0x80 + n / 0x1000 % 0x40, 0x80 + n / 0x40 % 0x40,
     0x80 + n % 0x40]

def utf8Bytes (s : String) : List Nat := (s.data.map utf8Ch).flatten

/-- The 64 MD5 sine-derived round constants. -/
def md5K : List Nat :=
  [0xd76aa478, 0xe8c7b756, 0x242070db, 0xc1bdceee,
   0xf57c0faf, 0x4787c62a, 0xa8304613, 0xfd469501,
   0x698098d8, 0x8b44f7af, 0xffff5bb1, 0x895cd7be,
   0x6b901122, 0xfd987193, 0xa679438e, 0x49b40821,
   0xf61e2562, 0xc040b340, 0x265e5a51, 0xe9b6c7aa,
   0xd62f105d, 0x02441453, 0xd8a1e681, 0xe7d3fbc8,
   0x21e1cde6, 0xc33707d6, 0xf4d50d87, 0x455a14ed,
   0xa9e3e905, 0xfcefa3f8, 0x676f02d9, 0x8d2a4c8a,
   0xfffa3942, 0x8771f681, 0x6d9d6122, 0xfde5380c,
   0xa4beea44, 0x4bdecfa9, 0xf6bb4b60, 0xbebfbc70,
   0x289b7ec6, 0xeaa127fa, 0xd4ef3085, 0x04881d05,
   0xd9d4d039, 0xe6db99e5, 0x1fa27cf8, 0xc4ac5665,
   0xf4292244, 0x432aff97, 0xab9423a7, 0xfc93a039,
   0x655b59c3, 0x8f0ccc92, 0xffeff47d, 0x85845dd1,
   0x6fa87e4f, 0xfe2ce6e0, 0xa3014314, 0x4e0811a1,
   0xf7537e82, 0xbd3af235, 0x2ad7d2bb, 0xeb86d391]

/-- The per-round left-rotation amounts. -/
def md5S : List Nat :=
  [7, 12, 17, 22, 7, 12, 17, 22, 7, 12, 17, 22, 7, 12, 17, 22,
   5, 9, 14, 20, 5, 9, 14, 20, 5, 9, 14, 20, 5, 9, 14, 20,
   4, 11, 16, 23, 4, 11, 16, 23, 4, 11, 16, 23, 4, 11, 16, 23,
   6, 10, 15, 21, 6, 10, 15, 21, 6, 10, 15, 21, 6, 10, 15, 21]

def md5Mask : Nat := 4294967296

/-- 32-bit left rotation. -/
def rotl32 (x s : Nat) : Nat := ((x <<< s) ||| (x >>> (32 - s))) % md5Mask

/-- Round function and message index for round `i`. -/
def md5FG (i b c d : Nat) : Nat × Nat :=
  if i < 16 then ((b &&& c) ||| ((b ^^^ 0xffffffff) &&& d), i)
  else if i < 32 then ((d &&& b) ||| ((d ^^^ 0xffffffff) &&& c), (5 * i + 1) % 16)
  else if i < 48 then (b ^^^ c ^^^ d, (3 * i + 5) % 16)
  else (c ^^^ (b ||| (d ^^^ 0xffffffff)), (7 * i) % 16)

def md5Round (M : List Nat) (st : Nat × Nat × Nat × Nat) (i : Nat) :
    Nat × Nat × Nat × Nat :=
  let (a, b, c, d) := st
  let (f, g) := md5FG i b c d
  let tmp := (a + f + md5K.getD i 0 + M.getD g 0) % md5Mask
  (d, (b + rotl32 tmp (md5S.getD i 0)) % md5Mask, b, c)

/-- Little-endian 32-bit word `j` of a 64-byte block. -/
def blockWord (block : List Nat) (j : Nat) : Nat :=
  block.getD (4 * j) 0 + 256 * block.getD (4 * j + 1) 0 +
  65536 * block.getD (4 * j + 2) 0 + 16777216 * block.getD (4 * j + 3) 0

def md5Block (st : Nat × Nat × Nat × Nat) (block : List Nat) :
    Nat × Nat × Nat × Nat :=
  let M := (List.range 16).map (blockWord block)
  let r := (List.range 64).foldl (md5Round M) st
  ((st.1 + r.1) % md5Mask, (st.2.1 + r.2.1) % md5Mask,
   (st.2.2.1 + r.2.2.1) % md5Mask, (st.2.2.2 + r.2.2.2) % md5Mask)

/-- MD5 padding: `0x80`, zeros to 56 mod 64, then the bit length as a 64-bit
little-endian quantity. -/
def md5Pad (msg : List Nat) : List Nat :=
  let L := msg.length
  let k := (56 + 64 - (L + 1) % 64) % 64
  msg ++ [0x80] ++ List.replicate k 0 ++
    (List.range 8).map (fun i => 8 * L % 2 ^ 64 / 2 ^ (8 * i) % 256)

/-- Split into 64-byte blocks (fuelled; fuel `length + 1` suffices). -/
def chunks64F : Nat → List Nat → List (List Nat)
  | 0, _ => []
  | _ + 1, [] => []
  | fuel + 1, l => l.take 64 :: chunks64F fuel (l.drop 64)

/-- The 16 digest bytes. -/
def md5Digest (msg : List Nat) : List Nat :=
  let blocks := chunks64F (msg.length + 9) (md5Pad msg)
  let r := blocks.foldl md5Block (0x67452301, 0xefcdab89, 0x98badcfe, 0x10325476)
  let wb : Nat → List Nat := fun x =>
    [x % 256, x / 256 % 256, x / 65536 % 256, x / 16777216 % 256]
  wb r.1 ++ wb r.2.1 ++ wb r.2.2.1 ++ wb r.2.2.2

def hexCh (n : Nat) : Char :=
  if n < 10 then Char.ofNat (48 + n) else Char.ofNat (87 + n)

def byteHex (b : Nat) : List Char := [hexCh (b / 16), hexCh (b % 16)]

/-- `hashlib.md5(s.encode("utf-8")).hexdigest()`. -/
def md5hex (s : String) : String := ⟨((md5Digest (utf8Bytes s)).map byteHex).flatten⟩

/-! ### Chunk identity (`_chunk_id` and the ordinal suffix of `build_index`) -/

/-- `pathlib.Path(p).name`: the component after the last `/` (POSIX paths, as
produced by the corpus scan). -/
def baseName (p : String) : String := ⟨(p.data.reverse.takeWhile (fun c => c != '/')).reverse⟩

/-- `_chunk_id(path, title, content)`: the file's base name, a colon, and the
MD5 hex digest of `path + "\n" + title + "\n" + content`.  (At every call
site `title` and `content` are strings, so Python's `title or ""` and
`content or ""` are the identity.) -/
def chunkIdBase (path title content : String) : String :=
  baseName path ++ ":" ++ md5hex (path ++ "\n" ++ title ++ "\n" ++ content)

/-- The identity actually stored by `build_index`: `f"{base}:{idx}"`. -/
def buildChunkId (path title content : String) (idx : Nat) : String :=
  chunkIdBase path title content ++ ":" ++ natDec idx

/-! ### Source-URL marker extraction

`re.search(r"<!--\s*source:\s*(.*?)\s*-->", md_text, flags=re.IGNORECASE)`
followed by `.group(1).strip()`.  At a given `<!--` the pattern matches
exactly when some later `-->` leaves a stripped core without newlines (the
lazy group cannot cross a newline, but the whitespace on either side of it
can); the extracted value is that stripped core. -/

def srcFindTerm : List Char → List Char → Option (List Char)
  | '-' :: '-' :: '>' :: rest, accRev =>
    let core := pyStripList accRev.reverse
    if core.any (fun c => c == '\n') then srcFindTerm ('-' :: '>' :: rest) ('-' :: accRev)
    else some core
  | c :: t, accRev => srcFindTerm t (c :: accRev)
  | [], _ => none

def srcAttempt (l : List Char) : Option (List Char) :=
  match l with
  | '<' :: '!' :: '-' :: '-' :: r =>
    match stripCi "source:".data (r.dropWhile isPyWs) with
    | some r2 => srcFindTerm r2 []
    | none => none
  | _ => none

def extractSourceF : Nat → List Char → Option (List Char)
  | 0, _ => none
  | _ + 1, [] => none
  | fuel + 1, c :: t =>
    match srcAttempt (c :: t) with
    | some core => some core
    | none => extractSourceF fuel t

/-- `source_url` of `build_index`: `m.group(1).strip()` when the marker
matches, `None` otherwise. -/
def extractSource (s : String) : Option String :=
  (extractSourceF (s.data.length + 1) s.data).map (fun l => (⟨l⟩ : String))

/-! ### Vector-collection and manifest data model

A Chroma record consists of an id, the stored document text, and a metadata
record; the manifest is the JSON object `{files: {path: {mtime, ids}}}`,
modelled as an association list that preserves JSON/dict key order.  The
build state additionally records every embedding call and every write issued
against the collection, so that "zero calls / zero writes" claims are
statements about the model. -/

/-- Sanitised metadata record: exactly the four fields `_sanitize_meta`
emits, all strings. -/
structure MetaS where
  path : String
  url : String
  title : String
  content : String
deriving DecidableEq, Repr

/-- The metadata mapping as built at the `build_index` call site, before
sanitisation: each of the four keys may hold a string or `None`. -/
structure RawMeta where
  path : Option String
  url : Option String
  title : Option String
  content : Option String
deriving DecidableEq, Repr

/-- `_sanitize_meta`: `None` (or a missing key) becomes `""`; `str(val)` is
the identity on the strings that occur at the call site. -/
def sanitizeMeta (d : RawMeta) : MetaS :=
  ⟨d.path.getD "", d.url.getD "", d.title.getD "", d.content.getD ""⟩

/-- One record of the vector collection. -/
structure DbRec where
  id : String
  doc : String
  meta : MetaS
deriving DecidableEq, Repr

/-- One manifest entry: `{"mtime": ..., "ids": [...]}` (`st_mtime` is a
float, modelled as a rational). -/
structure ManEntry where
  mtime : Rat
  ids : List String
deriving DecidableEq, Repr

/-- `manifest["files"]`, key order preserved. -/
abbrev Manifest := List (String × ManEntry)

/-- A source file as seen by the scan: path, contents, modification time. -/
structure FileInput where
  path : String
  content : String
  mtime : Rat
deriving DecidableEq, Repr

/-- State threaded through `build_index`, including a log of every embedding
call and every collection write. -/
structure BuildState where
  col : List DbRec
  man : Manifest
  embedCalls : List (List String)
  addCalls : List (List DbRec)
  deleteIdCalls : List (List String)
  deletePathCalls : List String
deriving Repr

/-- `_load_manifest`: empty manifest if the file is absent, the parse result
if `json.loads` succeeds, and the empty manifest again if parsing fails (the
`except` branch); never an error.  The filesystem state and the JSON parser
are parameters. -/
def loadManifest (file : Option String) (parse : String → Option Manifest) : Manifest :=
  match file with
  | none => []
  | some s =>
    match parse s with
    | some m => m
    | none => []

/-- The per-file desired records of `build_index`: ids
`f"{_chunk_id(path, title, content)}:{idx}"`, documents
`f"{title}\n\n{content}"`, sanitised metadata. -/
def newChunkRecs (path content : String) : List DbRec :=
  (chunkMarkdown content).enum.map (fun p =>
    { id := buildChunkId path p.2.1 p.2.2 p.1
      doc := p.2.1 ++ "\n\n" ++ p.2.2
      meta := sanitizeMeta ⟨some path, extractSource content, some p.2.1, some p.2.2⟩ })

/-- `collection.get(where={"path": path})`: ids of the records whose metadata
path equals `path`. -/
def existingIdsIn (col : List DbRec) (path : String) : List String :=
  (col.filter (fun r => r.meta.path == path)).map (fun r => r.id)

/-- The desired id list for a file (`new_ids`). -/
def desiredIds (path content : String) : List String :=
  (newChunkRecs path content).map (fun r => r.id)

/-- `to_delete = existing_ids - new_id_set`. -/
def toDeleteOf (col : List DbRec) (f : FileInput) : List String :=
  (existingIdsIn col f.path).filter
    (fun i => !(desiredIds f.path f.content).contains i)

/-- The records selected by `to_add_mask` (`cid not in existing_ids`). -/
def addsOf (col : List DbRec) (f : FileInput) : List DbRec :=
  (newChunkRecs f.path f.content).filter
    (fun r => !(existingIdsIn col f.path).contains r.id)

/-- The `unique` dict of `build_index`: per id keep the last value, in first-
insertion key order. -/
def dedupById (l : List DbRec) : List DbRec :=
  l.foldl (fun acc r =>
    if acc.any (fun s => s.id == r.id) then
      acc.map (fun s => if s.id == r.id then r else s)
    else acc ++ [r]) []

/-- `manifest["files"][path] = entry` on an order-preserving dict. -/
def setEntry (m : Manifest) (k : String) (v : ManEntry) : Manifest :=
  match m with
  | [] => [(k, v)]
  | (k', v') :: t => if k' == k then (k, v) :: t else (k', v') :: setEntry t k v

/-- First-match lookup in the manifest (dict access). -/
def entryAt (m : Manifest) (k : String) : Option ManEntry :=
  match m with
  | [] => none
  | (k', v') :: t => if k' == k then some v' else entryAt t k

/-- The body of `build_index`'s per-file loop: compute the desired state,
diff against the collection's existing ids for that path, delete stale ids,
defensively delete then add new ids (embedding exactly the added documents),
and update the manifest entry. -/
def processFile (st : BuildState) (f : FileInput) : BuildState :=
  let newIds := desiredIds f.path f.content
  let toDel := toDeleteOf st.col f
  let col1 := st.col.filter (fun r => !toDel.contains r.id)
  let addRecs0 := addsOf st.col f
  if addRecs0.isEmpty then
    { st with
      col := col1
      man := setEntry st.man f.path ⟨f.mtime, newIds⟩
      deleteIdCalls := st.deleteIdCalls ++ if toDel.isEmpty then [] else [toDel] }
  else
    let adds := dedupById addRecs0
    let addIds := adds.map (fun r => r.id)
    let col2 := col1.filter (fun r => !addIds.contains r.id)
    { col := col2 ++ adds
      man := setEntry st.man f.path ⟨f.mtime, newIds⟩
      embedCalls := st.embedCalls ++ [adds.map (fun r => r.doc)]
      addCalls := st.addCalls ++ [adds]
      deleteIdCalls := st.deleteIdCalls ++ (if toDel.isEmpty then [] else [toDel]) ++ [addIds]
      deletePathCalls := st.deletePathCalls }

def manifestKeys (m : Manifest) : List String := m.map (fun e => e.1)

/-- `build_index` on an already-scanned corpus: fold the per-file loop over
the files, then delete every record of the files that are in the manifest but
no longer in the corpus and drop their manifest entries.  (The final
`META_FILE`/`INDEX_EXISTS` writes touch neither the collection nor the
manifest content.) -/
def removedPaths (files : List FileInput) (man0 : Manifest) : List String :=
  ((manifestKeys man0).dedup).filter
    (fun k => !(files.map (fun f => f.path)).contains k)

def buildIndex (files : List FileInput) (col0 : List DbRec) (man0 : Manifest) :
    BuildState :=
  let st1 := files.foldl processFile ⟨col0, man0, [], [], [], []⟩
  let removed := removedPaths files man0
  { st1 with
    col := st1.col.filter (fun r => !removed.contains r.meta.path)
    man := st1.man.filter (fun e => !removed.contains e.1)
    deletePathCalls := st1.deletePathCalls ++ removed }

/-! ### The corpus scan of `build_index`

`sorted([str(p) for p in DOCS_DIR.glob("*.md") if "_src_" not in p.name])`.
The docs directory is modelled by the list of relative paths of the entries
under it; `glob("*.md")` matches direct children only (`*` does not cross a
path separator). -/

/-- `fnmatch`-style matching for patterns made of literal characters and `*`
(the only metacharacter in `"*.md"`); `*` matches any run of non-separator
characters.  Fuelled on pattern length plus string length. -/
def globMatchF : Nat → List Char → List Char → Bool
  | 0, _, _ => false
  | _ + 1, [], [] => true
  | _ + 1, [], _ :: _ => false
  | fuel + 1, '*' :: ps, s =>
    globMatchF fuel ps s ||
      (match s with
       | c :: cs => c != '/' && globMatchF fuel ('*' :: ps) cs
       | [] => false)
  | fuel + 1, p :: ps, s =>
    match s with
    | c :: cs => p == c && globMatchF fuel ps cs
    | [] => false

def globMd (name : String) : Bool :=
  globMatchF (name.data.length + 5) "*.md".data name.data

def beginsWith : List Char → List Char → Bool
  | [], _ => true
  | _ :: _, [] => false
  | a :: as, b :: bs => a == b && beginsWith as bs

/-- Python `needle in hay` on strings. -/
def hasSubstr (needle hay : List Char) : Bool :=
  match hay with
  | [] => beginsWith needle []
  | _ :: t => beginsWith needle hay || hasSubstr needle t

/-- Stable ascending insertion (Python `sorted` on strings). -/
def sortInsert (x : String) : List String → List String
  | [] => [x]
  | y :: t => if x ≤ y then x :: y :: t else y :: sortInsert x t

def sortStrings (l : List String) : List String := l.foldr sortInsert []

/-- The scanned corpus paths: direct entries of `data/docs` whose name
matches `*.md` and does not contain `_src_`, prefixed by the directory and
sorted. -/
def scanDocs (listing : List String) : List String :=
  sortStrings ((listing.filter (fun n =>
    globMd n && !hasSubstr "_src_".data n.data)).map (fun n => "data/docs/" ++ n))

/-- A scanned corpus together with each file's content and mtime (the
`read_text` and `stat` results). -/
def mkFiles (paths : List String) (contentOf : String → String)
    (mtimeOf : String → Rat) : List FileInput :=
  paths.map (fun p => ⟨p, contentOf p, mtimeOf p⟩)

/-! ### `_embed_texts`: normalization of embedding vectors

`np.linalg.norm(arr, axis=1, keepdims=True)` L2-norms each row,
`norms[norms == 0] = 1.0` replaces zero norms by one, and `arr / norms`
divides each row by its (adjusted) norm.  Both the Ollama path and the
SentenceTransformers fallback run exactly this code on the raw vectors they
obtain.  The float arithmetic is modelled exactly over `ℝ`; the raw vectors
delivered by the two backends are parameters (`none` for the Ollama call
models the exception that triggers the fallback). -/

noncomputable section

def sumSq (v : List ℝ) : ℝ := (v.map (fun x => x ^ 2)).sum

/-- One row of `arr / norms` after `norms[norms == 0] = 1.0`. -/
def normalizeRow (v : List ℝ) : List ℝ :=
  let n := Real.sqrt (sumSq v)
  let d := if n = 0 then 1 else n
  v.map (fun x => x / d)

/-- `_embed_texts`: if the Ollama server is up and the request succeeds, the
normalized Ollama vectors; otherwise the normalized SentenceTransformers
vectors. -/
def embedTexts (ollamaUp : Bool) (ollamaRes : Option (List (List ℝ)))
    (stRes : List (List ℝ)) : List (List ℝ) :=
  match ollamaUp, ollamaRes with
  | true, some arr => arr.map normalizeRow
  | _, _ => stRes.map normalizeRow

end

/-! ### Spec-side comparison definitions -/

/-- Modelled from the spec: the chunk-identity formula as §4.3 states it,
`hash(path ‖ "\n" ‖ title ‖ "\n" ‖ body) ‖ ":" ‖ ordinal` — no file-name
component.  For comparison with the implemented `buildChunkId`. -/
def specChunkIdentity (path title content : String) (idx : Nat) : String :=
  md5hex (path ++ "\n" ++ title ++ "\n" ++ content) ++ ":" ++ natDec idx

/-- Does the name end in `.md`? -/
def endsWithMd (n : String) : Bool := beginsWith ".md".data.reverse n.data.reverse

/-- Modelled from the claim wording for C10: a Markdown file directly inside
the docs directory (no path separator, `.md` suffix) whose name does not
contain `_src_`. -/
def specIndexedName (n : String) : Bool :=
  !n.data.contains '/' && endsWithMd n && !hasSubstr "_src_".data n.data

/-! ## General helper lemmas -/

theorem stringExt {a b : String} (h : a.data = b.data) : a = b := by
  cases a; cases b; simp_all

@[simp] theorem buildIndex_col (files : List FileInput) (col0 : List DbRec)
    (man0 : Manifest) :
    (buildIndex files col0 man0).col =
      (files.foldl processFile ⟨col0, man0, [], [], [], []⟩).col.filter
        (fun r => !(removedPaths files man0).contains r.meta.path) := rfl

@[simp] theorem buildIndex_man (files : List FileInput) (col0 : List DbRec)
    (man0 : Manifest) :
    (buildIndex files col0 man0).man =
      (files.foldl processFile ⟨col0, man0, [], [], [], []⟩).man.filter
        (fun e => !(removedPaths files man0).contains e.1) := rfl

@[simp] theorem buildIndex_deletePathCalls (files : List FileInput)
    (col0 : List DbRec) (man0 : Manifest) :
    (buildIndex files col0 man0).deletePathCalls =
      (files.foldl processFile ⟨col0, man0, [], [], [], []⟩).deletePathCalls ++
        removedPaths files man0 := rfl

@[simp] theorem buildIndex_embedCalls (files : List FileInput)
    (col0 : List DbRec) (man0 : Manifest) :
    (buildIndex files col0 man0).embedCalls =
      (files.foldl processFile ⟨col0, man0, [], [], [], []⟩).embedCalls := rfl

@[simp] theorem buildIndex_addCalls (files : List FileInput)
    (col0 : List DbRec) (man0 : Manifest) :
    (buildIndex files col0 man0).addCalls =
      (files.foldl processFile ⟨col0, man0, [], [], [], []⟩).addCalls := rfl

@[simp] theorem buildIndex_deleteIdCalls (files : List FileInput)
    (col0 : List DbRec) (man0 : Manifest) :
    (buildIndex files col0 man0).deleteIdCalls =
      (files.foldl processFile ⟨col0, man0, [], [], [], []⟩).deleteIdCalls := rfl

/-! ## Claim C8: manifest load failure policy -/

/-- Claim C8: for every filesystem state, `_load_manifest` returns the empty
manifest (no file entries) whenever the manifest file is absent or its
contents cannot be parsed; in the model it is a total function, so it never
raises to its caller. -/
theorem C8_load_manifest_failure (file : Option String)
    (parse : String → Option Manifest)
    (h : file = none ∨ ∃ s, file = some s ∧ parse s = none) :
    loadManifest file parse = [] := by
  rcases h with rfl | ⟨s, rfl, hp⟩
  · rfl
  · simp [loadManifest, hp]

theorem C8_load_manifest_failure_witness :
    loadManifest none (fun _ => none) = [] ∧
    loadManifest (some "not json \x7b") (fun _ => none) = [] :=
  ⟨C8_load_manifest_failure none (fun _ => none) (Or.inl rfl),
   C8_load_manifest_failure (some "not json \x7b") (fun _ => none)
     (Or.inr ⟨"not json \x7b", rfl, rfl⟩)⟩

/-! ## Claim C7: removed-file cleanup -/

/-- Claim C7: for every path present in the loaded manifest but absent from
the corpus scan, `build_index` leaves no collection record with that metadata
path, drops the file's manifest entry from the manifest it persists, and
issues the corresponding delete-by-path call. -/
theorem C7_removed_file_cleanup (files : List FileInput) (col0 : List DbRec)
    (man0 : Manifest) (p : String) (hman : p ∈ manifestKeys man0)
    (habs : p ∉ files.map (fun f => f.path)) :
    (∀ r ∈ (buildIndex files col0 man0).col, r.meta.path ≠ p) ∧
    p ∉ manifestKeys (buildIndex files col0 man0).man ∧
    p ∈ (buildIndex files col0 man0).deletePathCalls := by
  have hrem : p ∈ removedPaths files man0 := by
    refine List.mem_filter.2 ⟨List.mem_dedup.2 hman, ?_⟩
    simpa using habs
  refine ⟨?_, ?_, ?_⟩
  · intro r hr hp
    rw [buildIndex_col] at hr
    have := (List.mem_filter.1 hr).2
    rw [hp] at this
    simp [hrem] at this
  · intro hk
    rw [buildIndex_man] at hk
    rcases List.mem_map.1 hk with ⟨e, he, hep⟩
    have := (List.mem_filter.1 he).2
    rw [hep] at this
    simp [hrem] at this
  · rw [buildIndex_deletePathCalls]
    exact List.mem_append.2 (Or.inr hrem)

theorem C7_removed_file_cleanup_witness :
    (∀ r ∈ (buildIndex [] [⟨"id1", "d", ⟨"data/docs/gone.md", "", "t", "b"⟩⟩]
        [("data/docs/gone.md", ⟨1, ["id1"]⟩)]).col, r.meta.path ≠ "data/docs/gone.md") ∧
    "data/docs/gone.md" ∉ manifestKeys (buildIndex [] [⟨"id1", "d", ⟨"data/docs/gone.md", "", "t", "b"⟩⟩]
        [("data/docs/gone.md", ⟨1, ["id1"]⟩)]).man ∧
    "data/docs/gone.md" ∈ (buildIndex [] [⟨"id1", "d", ⟨"data/docs/gone.md", "", "t", "b"⟩⟩]
        [("data/docs/gone.md", ⟨1, ["id1"]⟩)]).deletePathCalls :=
  C7_removed_file_cleanup [] [⟨"id1", "d", ⟨"data/docs/gone.md", "", "t", "b"⟩⟩]
    [("data/docs/gone.md", ⟨1, ["id1"]⟩)] "data/docs/gone.md" (by decide) (by decide)

/-! ## Decimal-rendering lemmas -/

theorem decDigitsF_irrel :
    ∀ n f g, n < f → n < g → decDigitsF f n = decDigitsF g n := by
  intro n
  induction n using Nat.strong_induction_on with
  | _ n ih =>
    intro f g hf hg
    match f, g, hf, hg with
    | f' + 1, g' + 1, hf, hg =>
      simp only [decDigitsF]
      by_cases h0 : n = 0
      · simp [h0]
      · have hlt : n / 10 < n := Nat.div_lt_self (Nat.pos_of_ne_zero h0) (by omega)
        have h1 : n / 10 < f' := Nat.lt_of_lt_of_le hlt (by omega)
        have h2 : n / 10 < g' := Nat.lt_of_lt_of_le hlt (by omega)
        simp [h0, ih (n / 10) hlt f' g' h1 h2]

theorem decDigits_eq (n : Nat) :
    decDigits n = if n = 0 then [] else n % 10 :: decDigits (n / 10) := by
  by_cases h0 : n = 0
  · simp [h0, decDigits, decDigitsF]
  · have hlt : n / 10 < n := Nat.div_lt_self (Nat.pos_of_ne_zero h0) (by omega)
    have step : decDigitsF (n + 1) n = n % 10 :: decDigitsF n (n / 10) := by
      simp only [decDigitsF]
      simp [h0]
    rw [if_neg h0]
    show decDigitsF (n + 1) n = n % 10 :: decDigits (n / 10)
    rw [step, decDigitsF_irrel (n / 10) n (n / 10 + 1) hlt (by omega)]
    rfl

theorem decDigits_lt10 : ∀ n, ∀ d ∈ decDigits n, d < 10 := by
  intro n
  induction n using Nat.strong_induction_on with
  | _ n ih =>
    intro d hd
    rw [decDigits_eq] at hd
    by_cases h0 : n = 0
    · simp [h0] at hd
    · have hlt : n / 10 < n := Nat.div_lt_self (Nat.pos_of_ne_zero h0) (by omega)
      rw [if_neg h0] at hd
      rcases List.mem_cons.1 hd with h | h
      · omega
      · exact ih (n / 10) hlt d h

theorem decDigits_nil_iff (n : Nat) : decDigits n = [] ↔ n = 0 := by
  rw [decDigits_eq]
  by_cases h0 : n = 0 <;> simp [h0]

theorem decDigits_ne_zeroList (n : Nat) (hn : n ≠ 0) : decDigits n ≠ [0] := by
  intro h
  rw [decDigits_eq, if_neg hn] at h
  simp only [List.cons.injEq] at h
  have := (decDigits_nil_iff (n / 10)).1 h.2
  omega

theorem decDigits_inj : ∀ m n, decDigits m = decDigits n → m = n := by
  intro m
  induction m using Nat.strong_induction_on with
  | _ m ih =>
    intro n h
    by_cases hm : m = 0
    · subst hm
      by_cases hn : n = 0
      · omega
      · exfalso
        rw [(decDigits_nil_iff 0).2 rfl] at h
        exact hn ((decDigits_nil_iff n).1 h.symm)
    · by_cases hn : n = 0
      · exfalso
        subst hn
        rw [(decDigits_nil_iff 0).2 rfl] at h
        exact hm ((decDigits_nil_iff m).1 h)
      · have hem := decDigits_eq m
        have hen := decDigits_eq n
        rw [if_neg hm] at hem
        rw [if_neg hn] at hen
        rw [hem, hen] at h
        simp only [List.cons.injEq] at h
        have hlt : m / 10 < m := Nat.div_lt_self (Nat.pos_of_ne_zero hm) (by omega)
        have := ih (m / 10) hlt (n / 10) h.2
        omega

theorem digitCh_inj :
    ∀ d₁, d₁ < 10 → ∀ d₂, d₂ < 10 →
      Char.ofNat (48 + d₁) = Char.ofNat (48 + d₂) → d₁ = d₂ := by decide

theorem mapDigitCh_inj :
    ∀ a b : List Nat, (∀ x ∈ a, x < 10) → (∀ x ∈ b, x < 10) →
      a.map (fun d => Char.ofNat (48 + d)) = b.map (fun d => Char.ofNat (48 + d)) →
      a = b := by
  intro a
  induction a with
  | nil => intro b _ _ h; cases b <;> simp_all
  | cons x t ih =>
    intro b ha hb h
    cases b with
    | nil => simp at h
    | cons y u =>
      simp only [List.map_cons, List.cons.injEq] at h
      have hx := digitCh_inj x (ha x (by simp)) y (hb y (by simp)) h.1
      have ht := ih u (fun z hz => ha z (by simp [hz])) (fun z hz => hb z (by simp [hz])) h.2
      rw [hx, ht]

theorem natDec_data (n : Nat) :
    (natDec n).data =
      if n = 0 then [Char.ofNat 48]
      else ((decDigits n).map (fun d => Char.ofNat (48 + d))).reverse := by
  by_cases h : n = 0
  · rw [if_pos h]
    show (natDec n).data = _
    rw [show natDec n = "0" by simp [natDec, h]]
  · rw [if_neg h]
    rw [show natDec n = ⟨((decDigits n).map (fun d => Char.ofNat (48 + d))).reverse⟩ by
      simp [natDec, h]]

theorem natDec_inj (m n : Nat) (h : natDec m = natDec n) : m = n := by
  have hd := congrArg String.data h
  rw [natDec_data, natDec_data] at hd
  have hz : List.map (fun d => Char.ofNat (48 + d)) [0] = [Char.ofNat 48] := by decide
  by_cases hm : m = 0 <;> by_cases hn : n = 0
  · omega
  · exfalso
    rw [if_pos hm, if_neg hn] at hd
    have hrev := congrArg List.reverse hd
    simp only [List.reverse_reverse, List.reverse_cons, List.reverse_nil,
      List.nil_append] at hrev
    rw [← hz] at hrev
    exact decDigits_ne_zeroList n hn
      (mapDigitCh_inj [0] (decDigits n) (by decide) (decDigits_lt10 n) hrev).symm
  · exfalso
    rw [if_neg hm, if_pos hn] at hd
    have hrev := congrArg List.reverse hd
    simp only [List.reverse_reverse, List.reverse_cons, List.reverse_nil,
      List.nil_append] at hrev
    rw [← hz] at hrev
    exact decDigits_ne_zeroList m hm
      (mapDigitCh_inj (decDigits m) [0] (decDigits_lt10 m) (by decide) hrev)
  · rw [if_neg hm, if_neg hn] at hd
    have hrev := congrArg List.reverse hd
    simp only [List.reverse_reverse] at hrev
    exact decDigits_inj m n
      (mapDigitCh_inj _ _ (decDigits_lt10 m) (decDigits_lt10 n) hrev)

/-! ## MD5 digest length -/

theorem byteHexFlat_len (l : List Nat) :
    ((l.map byteHex).flatten).length = 2 * l.length := by
  induction l with
  | nil => simp
  | cons a t ih =>
    simp only [List.map_cons, List.flatten_cons, List.length_append, ih,
      List.length_cons, byteHex]
    simp
    omega

theorem md5Digest_len (msg : List Nat) : (md5Digest msg).length = 16 := by
  simp [md5Digest]

theorem md5hex_len (s : String) : (md5hex s).length = 32 := by
  show (((md5Digest (utf8Bytes s)).map byteHex).flatten).length = 32
  rw [byteHexFlat_len, md5Digest_len]

/-! ## Claim C2: chunk identity formula -/

/-- Claim C2 counterexample: the identity `build_index` assigns is *not*
`hash(path ‖ "\n" ‖ title ‖ "\n" ‖ body) ‖ ":" ‖ ordinal` — the code prepends
the file's base name (`_chunk_id` returns `f"{Path(path).name}:{h}"`), so at
the concrete chunk `("data/docs/a.md", "# T", "b", 0)` the two strings differ
(they do not even have the same length). -/
theorem C2_counterexample :
    buildChunkId "data/docs/a.md" "# T" "b" 0 ≠
      specChunkIdentity "data/docs/a.md" "# T" "b" 0 := by
  intro h
  have h1 := congrArg String.length h
  simp only [buildChunkId, chunkIdBase, specChunkIdentity,
    String.length_append, md5hex_len] at h1
  have hb : (baseName "data/docs/a.md").length = 4 := by decide
  have hc : (":" : String).length = 1 := rfl
  have hn : (natDec 0).length = 1 := by decide
  rw [hb, hc, hn] at h1
  omega

/-- Claim C2 (amended): the identity assigned to a chunk equals
`basename(path) ‖ ":" ‖ md5(path ‖ "\n" ‖ title ‖ "\n" ‖ body) ‖ ":" ‖
ordinal`; it is deterministic (a pure function of path, title, body and
ordinal), and two chunks of the same file with equal `(title, body)` but
different ordinals receive distinct identities. -/
theorem C2_chunk_identity (p t c : String) (i j : Nat) :
    buildChunkId p t c i =
      baseName p ++ ":" ++ md5hex (p ++ "\n" ++ t ++ "\n" ++ c) ++ ":" ++ natDec i ∧
    (i ≠ j → buildChunkId p t c i ≠ buildChunkId p t c j) := by
  refine ⟨rfl, fun hij h => hij ?_⟩
  have hd := congrArg String.data h
  simp only [buildChunkId, String.data_append, List.append_assoc] at hd
  have h1 := List.append_cancel_left hd
  have h2 := List.append_cancel_left h1
  exact natDec_inj i j (stringExt h2)

theorem C2_chunk_identity_witness :
    buildChunkId "data/docs/a.md" "# T" "b" 0 ≠ buildChunkId "data/docs/a.md" "# T" "b" 1 :=
  (C2_chunk_identity "data/docs/a.md" "# T" "b" 0 1).2 (by decide)

/-! ## Claim C4: default-titled leading chunk -/

theorem cleanText_data (s : String) : (cleanText s).data = cleanTextList s.data := rfl

theorem findCloseBr_cons_skip (c : Char) (r : List Char) (hc : c ≠ '\n') :
    findCloseBr (c :: ']' :: '(' :: r) = some r := by
  rw [findCloseBr.eq_def]
  split
  · simp_all
  · simp_all
  · rename_i hne1 hne2 heq
    obtain ⟨rfl, rfl⟩ := heq
    rfl
  · simp_all

theorem findParen_cons_skip (c : Char) (r : List Char) (hc1 : c ≠ '\n')
    (hc2 : c ≠ ')') : findParen (c :: ')' :: r) = some r := by
  rw [findParen.eq_def]
  split
  · simp_all
  · simp_all
  · rename_i hne1 hne2 heq
    obtain ⟨rfl, rfl⟩ := heq
    rfl
  · simp_all

/-- Claim C3 counterexample: `clean_text` has no fenced-block state at all;
a line consisting of an image link between two fence-delimiter lines is
emptied like any other line, so the fenced contents are altered. -/
theorem C3_counterexample :
    cleanText "```\n![a](b)\n```" = "```\n\n```" ∧
    cleanText "```\n![a](b)\n```" ≠ "```\n![a](b)\n```" := by
  decide

/-- Claim C3 (amended): `clean_text` does not special-case fenced code
blocks — no transform is skipped between a fence opener and its closing
fence; in particular, for every image link `![t](u)` alone on a line between
two fence lines (title and url arbitrary single characters other than
newline, and url not a closing parenthesis), the image-removal transform
fires inside the fence and empties that line. -/
theorem C3_no_fence_protection (t u : Char) (ht : t ≠ '\n') (hu1 : u ≠ '\n')
    (hu2 : u ≠ ')') :
    cleanText ("```\n![" ++ (⟨[t]⟩ : String) ++ "](" ++ (⟨[u]⟩ : String) ++ ")\n```") =
      "```\n\n```" := by
  have ht' : (t == '\n') = false := by simp [ht]
  have hu1' : (u == '\n') = false := by simp [hu1]
  have hdata : ("```\n![" ++ (⟨[t]⟩ : String) ++ "](" ++ (⟨[u]⟩ : String) ++ ")\n```").data =
      Char.ofNat 96 :: Char.ofNat 96 :: Char.ofNat 96 :: '\n' :: '!' :: '[' ::
        t :: ']' :: '(' :: u :: ')' :: '\n' ::
        Char.ofNat 96 :: Char.ofNat 96 :: [Char.ofNat 96] := by
    simp only [String.data_append]
    rfl
  apply stringExt
  rw [cleanText_data, hdata]
  show pyStripList (collapseNewlines (anchorSub (tokenSub (bulletSub
    (loginSub (imageSub (truncAtHeading _))))))) = _
  have htr : truncAtHeading (Char.ofNat 96 :: Char.ofNat 96 :: Char.ofNat 96 :: '\n' ::
      '!' :: '[' :: t :: ']' :: '(' :: u :: ')' :: '\n' ::
      Char.ofNat 96 :: Char.ofNat 96 :: [Char.ofNat 96]) =
      Char.ofNat 96 :: Char.ofNat 96 :: Char.ofNat 96 :: '\n' :: '!' :: '[' ::
        t :: ']' :: '(' :: u :: ')' :: '\n' ::
        Char.ofNat 96 :: Char.ofNat 96 :: [Char.ofNat 96] := by
    simp [truncAtHeading, truncGo, matchHeadAt, isPyWs, ht', hu1']
  rw [htr]
  have him : imageSub (Char.ofNat 96 :: Char.ofNat 96 :: Char.ofNat 96 :: '\n' ::
      '!' :: '[' :: t :: ']' :: '(' :: u :: ')' :: '\n' ::
      Char.ofNat 96 :: Char.ofNat 96 :: [Char.ofNat 96]) =
      Char.ofNat 96 :: Char.ofNat 96 :: Char.ofNat 96 :: '\n' :: '\n' ::
        Char.ofNat 96 :: Char.ofNat 96 :: [Char.ofNat 96] := by
    simp [imageSub, imageSubF, findCloseBr_cons_skip t _ ht,
      findParen_cons_skip u _ hu1 hu2]
  rw [him]
  decide

theorem C3_no_fence_protection_witness :
    cleanText "```\n![x](y)\n```" = "```\n\n```" := by
  have h := C3_no_fence_protection 'x' 'y' (by decide) (by decide) (by decide)
  rw [show ("```\n![x](y)\n```" : String) =
    "```\n![" ++ (⟨['x']⟩ : String) ++ "](" ++ (⟨['y']⟩ : String) ++ ")\n```" by decide]
  exact h

/-! ## Claim C9: metadata sanitization invariant -/

theorem dedupById_forall {P : DbRec → Prop} :
    ∀ (l acc : List DbRec), (∀ r ∈ acc, P r) → (∀ r ∈ l, P r) →
      ∀ r ∈ l.foldl (fun acc r =>
        if acc.any (fun s => s.id == r.id) then
          acc.map (fun s => if s.id == r.id then r else s)
        else acc ++ [r]) acc, P r := by
  intro l
  induction l with
  | nil => intro acc hacc _ r hr; exact hacc r hr
  | cons x t ih =>
    intro acc hacc hl r hr
    simp only [List.foldl_cons] at hr
    refine ih _ ?_ (fun z hz => hl z (by simp [hz])) r hr
    intro s hs
    by_cases hany : acc.any (fun s => s.id == x.id)
    · simp only [hany, if_pos] at hs
      rcases List.mem_map.1 hs with ⟨s', hs', hmap⟩
      by_cases hid : s'.id == x.id
      · rw [← hmap]
        simp only [hid, if_pos]
        exact hl x (by simp)
      · rw [← hmap]
        simp only [hid, Bool.false_eq_true, if_false]
        exact hacc s' hs'
    · simp only [hany, Bool.false_eq_true, if_false] at hs
      rcases List.mem_append.1 hs with h | h
      · exact hacc s h
      · rw [List.mem_singleton.1 h]
        exact hl x (by simp)

theorem dedupById_forall' {P : DbRec → Prop} (l : List DbRec)
    (h : ∀ r ∈ l, P r) : ∀ r ∈ dedupById l, P r :=
  dedupById_forall l [] (by simp) h

theorem processFile_addCalls_inv {P : DbRec → Prop} (st : BuildState)
    (f : FileInput) (hst : ∀ b ∈ st.addCalls, ∀ r ∈ b, P r)
    (hf : ∀ r ∈ newChunkRecs f.path f.content, P r) :
    ∀ b ∈ (processFile st f).addCalls, ∀ r ∈ b, P r := by
  intro b hb
  by_cases hemp : (addsOf st.col f).isEmpty
  · simp only [processFile, hemp, if_pos] at hb
    exact hst b hb
  · simp only [processFile, hemp, Bool.false_eq_true, if_false] at hb
    rcases List.mem_append.1 hb with h | h
    · exact hst b h
    · rw [List.mem_singleton.1 h]
      exact dedupById_forall' _ (fun r hr => hf r (List.mem_filter.1 hr).1)

theorem foldl_addCalls_inv {P : DbRec → Prop} :
    ∀ (files : List FileInput) (st : BuildState),
      (∀ b ∈ st.addCalls, ∀ r ∈ b, P r) →
      (∀ f ∈ files, ∀ r ∈ newChunkRecs f.path f.content, P r) →
      ∀ b ∈ (files.foldl processFile st).addCalls, ∀ r ∈ b, P r := by
  intro files
  induction files with
  | nil => intro st hst _ b hb; exact hst b hb
  | cons f t ih =>
    intro st hst hf b hb
    simp only [List.foldl_cons] at hb
    exact ih (processFile st f)
      (processFile_addCalls_inv st f hst (hf f (by simp)))
      (fun g hg => hf g (by simp [hg])) b hb

/-- Claim C9: every metadata record handed to `collection.add` by
`build_index` is the `_sanitize_meta` image of the raw call-site mapping:
it has exactly the four string fields `path`, `url`, `title`, `content`,
where `path`/`title`/`content` are the chunk's path, title and body, and
`url` is the file's source marker defaulted to `""` when the marker is
absent (a `None` value never reaches the collection). -/
theorem C9_metadata_sanitized (files : List FileInput) (col0 : List DbRec)
    (man0 : Manifest) :
    ∀ b ∈ (buildIndex files col0 man0).addCalls, ∀ r ∈ b,
      ∃ f ∈ files, ∃ t c : String,
        r.meta = sanitizeMeta ⟨some f.path, extractSource f.content, some t, some c⟩ ∧
        r.meta.path = f.path ∧ r.meta.title = t ∧ r.meta.content = c ∧
        r.meta.url = (extractSource f.content).getD "" := by
  rw [buildIndex_addCalls]
  refine foldl_addCalls_inv files _ (by simp) ?_
  intro f hf r hr
  rcases List.mem_map.1 hr with ⟨p, hp, hrec⟩
  refine ⟨f, hf, p.2.1, p.2.2, ?_⟩
  rw [← hrec]
  simp [sanitizeMeta]

theorem C9_metadata_sanitized_witness :
    ∃ f ∈ [(⟨"data/docs/a.md", "x", 1⟩ : FileInput)], ∃ t c : String,
      (⟨buildChunkId "data/docs/a.md" "# Inhalt" "x" 0, "# Inhalt\n\nx",
        ⟨"data/docs/a.md", "", "# Inhalt", "x"⟩⟩ : DbRec).meta =
          sanitizeMeta ⟨some f.path, extractSource f.content, some t, some c⟩ ∧
      (⟨"data/docs/a.md", "", "# Inhalt", "x"⟩ : MetaS).path = f.path ∧
      (⟨"data/docs/a.md", "", "# Inhalt", "x"⟩ : MetaS).title = t ∧
      (⟨"data/docs/a.md", "", "# Inhalt", "x"⟩ : MetaS).content = c ∧
      (⟨"data/docs/a.md", "", "# Inhalt", "x"⟩ : MetaS).url =
        (extractSource "x").getD "" := by
  have h := C9_metadata_sanitized [⟨"data/docs/a.md", "x", 1⟩] [] []
    [⟨buildChunkId "data/docs/a.md" "# Inhalt" "x" 0, "# Inhalt\n\nx",
      ⟨"data/docs/a.md", "", "# Inhalt", "x"⟩⟩] (by decide)
    ⟨buildChunkId "data/docs/a.md" "# Inhalt" "x" 0, "# Inhalt\n\nx",
      ⟨"data/docs/a.md", "", "# Inhalt", "x"⟩⟩ (by decide)
  rcases h with ⟨f, hf, t, c, h1, h2, h3, h4, h5⟩
  have hfe : f = ⟨"data/docs/a.md", "x", 1⟩ := List.mem_singleton.1 hf
  subst hfe
  exact ⟨_, hf, t, c, h1, h2, h3, h4, h5⟩

/-! ## Claim C10: corpus scan filter -/

theorem beginsWith_iff : ∀ (p l : List Char),
    (beginsWith p l = true ↔ ∃ r, l = p ++ r) := by
  intro p
  induction p with
  | nil => intro l; exact ⟨fun _ => ⟨l, by simp⟩, fun _ => rfl⟩
  | cons a ps ih =>
    intro l
    cases l with
    | nil =>
      simp [beginsWith]
    | cons c cs =>
      simp only [beginsWith, Bool.and_eq_true, beq_iff_eq, ih cs]
      constructor
      · rintro ⟨rfl, r, rfl⟩
        exact ⟨r, rfl⟩
      · rintro ⟨r, hr⟩
        simp only [List.cons_append, List.cons.injEq] at hr
        exact ⟨hr.1.symm ▸ rfl, r, hr.2⟩

theorem hasSubstr_iff : ∀ (h n : List Char),
    (hasSubstr n h = true ↔ ∃ a b, h = a ++ n ++ b) := by
  intro h
  induction h with
  | nil =>
    intro n
    show beginsWith n [] = true ↔ _
    cases n with
    | nil => simp [beginsWith]
    | cons x xs =>
      simp only [beginsWith, Bool.false_eq_true, false_iff]
      rintro ⟨a, b, hab⟩
      exact absurd hab.symm (by simp)
  | cons c cs ih =>
    intro n
    show (beginsWith n (c :: cs) || hasSubstr n cs) = true ↔ _
    simp only [Bool.or_eq_true, beginsWith_iff, ih]
    constructor
    · rintro (⟨r, hr⟩ | ⟨a, b, hab⟩)
      · exact ⟨[], r, by simpa using hr⟩
      · exact ⟨c :: a, b, by simp [hab]⟩
    · rintro ⟨a, b, hab⟩
      cases a with
      | nil => exact Or.inl ⟨b, by simpa using hab⟩
      | cons x xs =>
        simp only [List.cons_append, List.cons.injEq, List.append_assoc] at hab
        exact Or.inr ⟨xs, b, by simp [hab.2]⟩

theorem globLit_md_iff : ∀ (k : Nat) (s : List Char),
    (globMatchF (k + 4) ['.', 'm', 'd'] s = true ↔ s = ['.', 'm', 'd']) := by
  intro k s
  match s with
  | [] => simp [globMatchF]
  | [a] => simp [globMatchF]
  | [a, b] => simp [globMatchF]
  | [a, b, c] =>
    simp [globMatchF]; tauto
  | a :: b :: c :: d :: t => simp [globMatchF]

theorem globStar_md_iff : ∀ (s : List Char) (fuel : Nat), s.length + 5 ≤ fuel →
    (globMatchF fuel ['*', '.', 'm', 'd'] s = true ↔
      ('/' ∉ s ∧ ∃ a, s = a ++ ['.', 'm', 'd'])) := by
  intro s
  induction s with
  | nil =>
    intro fuel hf
    obtain ⟨k, rfl⟩ : ∃ k, fuel = k + 5 := ⟨fuel - 5, by omega⟩
    constructor
    · intro h
      simp [globMatchF] at h
    · rintro ⟨-, a, ha⟩
      exact absurd ha.symm (by simp)
  | cons c cs ih =>
    intro fuel hf
    obtain ⟨k, rfl⟩ : ∃ k, fuel = k + 6 :=
      ⟨fuel - 6, by simp only [List.length_cons] at hf; omega⟩
    have hstep : globMatchF (k + 6) ['*', '.', 'm', 'd'] (c :: cs) =
        (globMatchF (k + 5) ['.', 'm', 'd'] (c :: cs) ||
          (c != '/' && globMatchF (k + 5) ['*', '.', 'm', 'd'] cs)) := by
      rfl
    rw [hstep]
    have hlit := globLit_md_iff (k + 1) (c :: cs)
    have hrec := ih (k + 5) (by simp only [List.length_cons] at hf; omega)
    simp only [Bool.or_eq_true, Bool.and_eq_true, bne_iff_ne, ne_eq]
    rw [show k + 5 = (k + 1) + 4 by omega] at hlit
    rw [hlit, hrec]
    constructor
    · rintro (heq | ⟨hslash, hnos, a, ha⟩)
      · rw [heq]
        exact ⟨by decide, [], rfl⟩
      · refine ⟨?_, c :: a, by simp [ha]⟩
        simp only [List.mem_cons, not_or]
        exact ⟨fun h => hslash h.symm, hnos⟩
    · rintro ⟨hslash, a, ha⟩
      cases a with
      | nil => exact Or.inl (by simpa using ha)
      | cons x xs =>
        simp only [List.cons_append, List.cons.injEq] at ha
        refine Or.inr ⟨?_, ?_, xs, ha.2⟩
        · intro h
          exact hslash (by simp [h])
        · intro h
          exact hslash (List.mem_cons_of_mem _ h)

theorem globMd_iff (n : String) :
    globMd n = true ↔ ('/' ∉ n.data ∧ ∃ a, n.data = a ++ ['.', 'm', 'd']) := by
  have : ("*.md" : String).data = ['*', '.', 'm', 'd'] := by decide
  rw [globMd, this]
  exact globStar_md_iff n.data (n.data.length + 5) (by omega)

theorem sortInsert_mem (x y : String) :
    ∀ l, (y ∈ sortInsert x l ↔ y = x ∨ y ∈ l) := by
  intro l
  induction l with
  | nil => simp [sortInsert]
  | cons z t ih =>
    by_cases h : x ≤ z
    · simp [sortInsert, h]
    · simp only [sortInsert, h, if_false, List.mem_cons, ih]
      tauto

theorem sortStrings_mem (x : String) :
    ∀ l, (x ∈ sortStrings l ↔ x ∈ l) := by
  intro l
  induction l with
  | nil => simp [sortStrings]
  | cons z t ih =>
    show x ∈ sortInsert z (sortStrings t) ↔ _
    rw [sortInsert_mem, ih]
    simp

theorem processFile_man (st : BuildState) (f : FileInput) :
    (processFile st f).man = setEntry st.man f.path
      ⟨f.mtime, (newChunkRecs f.path f.content).map (fun r => r.id)⟩ := by
  simp only [processFile]
  split <;> rfl

theorem setEntry_keys (m : Manifest) (k : String) (v : ManEntry) :
    ∀ x ∈ manifestKeys (setEntry m k v), x = k ∨ x ∈ manifestKeys m := by
  induction m with
  | nil =>
    intro x hx
    simp [setEntry, manifestKeys] at hx
    exact Or.inl hx
  | cons e t ih =>
    intro x hx
    by_cases he : e.1 == k
    · have hse : setEntry (e :: t) k v = (k, v) :: t := by
        cases e
        simp only [setEntry]
        rw [if_pos he]
      rw [hse] at hx
      simp only [manifestKeys, List.map_cons, List.mem_cons] at hx ⊢
      rcases hx with h | h
      · exact Or.inl h
      · exact Or.inr (Or.inr h)
    · have hse : setEntry (e :: t) k v = e :: setEntry t k v := by
        cases e
        simp only [setEntry]
        rw [if_neg (by simpa using he)]
      rw [hse] at hx
      simp only [manifestKeys, List.map_cons, List.mem_cons] at hx ⊢
      rcases hx with h | h
      · exact Or.inr (Or.inl h)
      · rcases ih x (by simpa [manifestKeys] using h) with h2 | h2
        · exact Or.inl h2
        · exact Or.inr (Or.inr (by simpa [manifestKeys] using h2))

theorem foldl_man_keys : ∀ (files : List FileInput) (st : BuildState),
    ∀ x ∈ manifestKeys (files.foldl processFile st).man,
      x ∈ manifestKeys st.man ∨ x ∈ files.map (fun f => f.path) := by
  intro files
  induction files with
  | nil => intro st x hx; exact Or.inl hx
  | cons f t ih =>
    intro st x hx
    simp only [List.foldl_cons] at hx
    rcases ih (processFile st f) x hx with h | h
    · rw [processFile_man] at h
      rcases setEntry_keys _ _ _ x h with h2 | h2
      · exact Or.inr (by simp [h2])
      · exact Or.inl h2
    · exact Or.inr (by simp [h])

theorem mkFiles_paths (paths : List String) (contentOf : String → String)
    (mtimeOf : String → Rat) :
    (mkFiles paths contentOf mtimeOf).map (fun f => f.path) = paths := by
  simp [mkFiles, List.map_map]
  exact List.map_id paths

/-- Claim C10: the indexed corpus is exactly the `*.md` files directly inside
the docs directory (no path separator in the glob result: no recursion into
subdirectories) whose name does not contain `_src_`; every path recorded in
the persisted manifest and every record added to the collection comes from
that filtered scan. -/
theorem C10_corpus_scan (listing : List String) (contents : String → String)
    (mtimes : String → Rat) (col0 : List DbRec) (man0 : Manifest) :
    (∀ x, x ∈ scanDocs listing ↔
      ∃ n ∈ listing, ('/' ∉ n.data ∧ ∃ a, n.data = a ++ ['.', 'm', 'd']) ∧
        ¬(∃ a b, n.data = a ++ "_src_".data ++ b) ∧ x = "data/docs/" ++ n) ∧
    (∀ k ∈ manifestKeys
        (buildIndex (mkFiles (scanDocs listing) contents mtimes) col0 man0).man,
      k ∈ scanDocs listing) ∧
    (∀ b ∈ (buildIndex (mkFiles (scanDocs listing) contents mtimes) col0 man0).addCalls,
      ∀ r ∈ b, r.meta.path ∈ scanDocs listing) := by
  refine ⟨?_, ?_, ?_⟩
  · intro x
    rw [scanDocs, sortStrings_mem]
    constructor
    · intro hx
      rcases List.mem_map.1 hx with ⟨n, hn, hxe⟩
      have hfil := List.mem_filter.1 hn
      have hpred := hfil.2
      simp only [Bool.and_eq_true, Bool.not_eq_true'] at hpred
      refine ⟨n, hfil.1, (globMd_iff n).1 hpred.1, ?_, hxe.symm⟩
      intro hsub
      have := (hasSubstr_iff n.data "_src_".data).2 hsub
      rw [hpred.2] at this
      exact Bool.false_ne_true this
    · rintro ⟨n, hn, hglob, hsub, rfl⟩
      refine List.mem_map.2 ⟨n, List.mem_filter.2 ⟨hn, ?_⟩, rfl⟩
      simp only [Bool.and_eq_true, Bool.not_eq_true']
      refine ⟨(globMd_iff n).2 hglob, ?_⟩
      by_cases h : hasSubstr "_src_".data n.data
      · exact absurd ((hasSubstr_iff n.data "_src_".data).1 h) hsub
      · simpa using h
  · intro k hk
    rw [buildIndex_man] at hk
    rcases List.mem_map.1 hk with ⟨e, he, hek⟩
    have hfil := List.mem_filter.1 he
    have hknotrem : k ∉ removedPaths (mkFiles (scanDocs listing) contents mtimes) man0 := by
      intro hmem
      have := hfil.2
      rw [hek] at this
      simp [hmem] at this
    have hkeys : k ∈ manifestKeys (((mkFiles (scanDocs listing) contents mtimes)).foldl
        processFile ⟨col0, man0, [], [], [], []⟩).man := by
      rw [← hek]
      exact List.mem_map.2 ⟨e, hfil.1, rfl⟩
    rcases foldl_man_keys _ _ k hkeys with h | h
    · by_contra hnot
      apply hknotrem
      refine List.mem_filter.2 ⟨List.mem_dedup.2 h, ?_⟩
      rw [mkFiles_paths]
      simpa using hnot
    · rwa [mkFiles_paths] at h
  · rw [buildIndex_addCalls]
    refine foldl_addCalls_inv _ _ (by simp) ?_
    intro f hf r hr
    rcases List.mem_map.1 hr with ⟨pr, hpr, hrec⟩
    have hpath : r.meta.path = f.path := by
      rw [← hrec]
      simp [sanitizeMeta]
    rw [hpath]
    have hpm : f.path ∈ (mkFiles (scanDocs listing) contents mtimes).map
        (fun g => g.path) := List.mem_map.2 ⟨f, hf, rfl⟩
    rwa [mkFiles_paths] at hpm

theorem C10_corpus_scan_witness :
    "data/docs/a.md" ∈ scanDocs ["sub/y.md", "b_src_c.md", "a.md", "x.txt"] ∧
    (∃ n ∈ ["sub/y.md", "b_src_c.md", "a.md", "x.txt"],
      ('/' ∉ n.data ∧ ∃ a, n.data = a ++ ['.', 'm', 'd']) ∧
      ¬(∃ a b, n.data = a ++ "_src_".data ++ b) ∧
      "data/docs/a.md" = "data/docs/" ++ n) := by
  have h := (C10_corpus_scan ["sub/y.md", "b_src_c.md", "a.md", "x.txt"]
    (fun _ => "") (fun _ => 1) [] []).1 "data/docs/a.md"
  have hmem : "data/docs/a.md" ∈ scanDocs ["sub/y.md", "b_src_c.md", "a.md", "x.txt"] := by
    refine h.2 ⟨"a.md", by decide, ⟨by decide, ['a'], by decide⟩, ?_, by decide⟩
    intro hex
    exact absurd ((hasSubstr_iff "a.md".data "_src_".data).2 hex) (by decide)
  exact ⟨hmem, h.1 hmem⟩

/-! ## Claim C5: unit-norm embeddings -/

theorem sumSq_nonneg (v : List ℝ) : 0 ≤ sumSq v := by
  refine List.sum_nonneg ?_
  intro x hx
  rcases List.mem_map.1 hx with ⟨y, -, rfl⟩
  positivity

theorem sumSq_map_div (v : List ℝ) (c : ℝ) :
    sumSq (v.map (fun x => x / c)) = sumSq v / c ^ 2 := by
  induction v with
  | nil => simp [sumSq]
  | cons x t ih =>
    simp only [sumSq, List.map_cons, List.sum_cons] at ih ⊢
    rw [ih, div_pow, add_div]

/-- Claim C5 counterexample: a raw zero vector is *not* mapped to a
unit-length epsilon vector — `norms[norms == 0] = 1.0` makes the division a
no-op, so the zero vector is returned unchanged, with L2 norm 0, not 1. -/
theorem C5_counterexample :
    embedTexts true (some [[(0 : ℝ), 0]]) [] = [[(0 : ℝ), 0]] ∧
    Real.sqrt (sumSq [(0 : ℝ), 0]) = 0 ∧ (0 : ℝ) ≠ 1 := by
  refine ⟨?_, ?_, by norm_num⟩
  · show [[(0 : ℝ), 0]].map normalizeRow = _
    simp [normalizeRow, sumSq]
  · simp [sumSq]

/-- Claim C5 (amended): on both the Ollama path and the SentenceTransformers
fallback, every returned vector is the normalization of a raw backend vector;
a raw vector with non-zero norm is scaled to L2 norm exactly 1 (in the exact
real-arithmetic model; up to floating-point tolerance in the implementation),
while a raw zero vector is returned unchanged — with norm 0, not 1. -/
theorem C5_embed_normalization (up : Bool) (ores : Option (List (List ℝ)))
    (st : List (List ℝ)) (w : List ℝ) (hw : w ∈ embedTexts up ores st) :
    ∃ raw, w = normalizeRow raw ∧
      (sumSq raw ≠ 0 → Real.sqrt (sumSq w) = 1) ∧
      (sumSq raw = 0 → w = raw) := by
  have hg : ∃ raw, w = normalizeRow raw := by
    cases up <;> cases ores <;>
      · simp only [embedTexts] at hw
        rcases List.mem_map.1 hw with ⟨raw, -, rfl⟩
        exact ⟨raw, rfl⟩
  rcases hg with ⟨raw, rfl⟩
  refine ⟨raw, rfl, ?_, ?_⟩
  · intro hne
    have hpos : 0 < sumSq raw := lt_of_le_of_ne (sumSq_nonneg raw) (Ne.symm hne)
    have hn : Real.sqrt (sumSq raw) ≠ 0 :=
      ne_of_gt (Real.sqrt_pos.2 hpos)
    show Real.sqrt (sumSq (raw.map (fun x => x /
      (if Real.sqrt (sumSq raw) = 0 then 1 else Real.sqrt (sumSq raw))))) = 1
    rw [if_neg hn, sumSq_map_div, Real.sq_sqrt (le_of_lt hpos),
      div_self (ne_of_gt hpos), Real.sqrt_one]
  · intro hz
    show raw.map (fun x => x /
      (if Real.sqrt (sumSq raw) = 0 then 1 else Real.sqrt (sumSq raw))) = raw
    rw [hz, Real.sqrt_zero, if_pos rfl]
    simp

theorem C5_embed_normalization_witness :
    ∃ raw, [(3 : ℝ)/5, 4/5] = normalizeRow raw ∧
      (sumSq raw ≠ 0 → Real.sqrt (sumSq [(3 : ℝ)/5, 4/5]) = 1) ∧
      (sumSq raw = 0 → [(3 : ℝ)/5, 4/5] = raw) := by
  have h25 : Real.sqrt (25 : ℝ) = 5 := by
    rw [show (25 : ℝ) = 5 ^ 2 by norm_num]
    exact Real.sqrt_sq (by norm_num)
  have h34 : normalizeRow [(3 : ℝ), 4] = [(3 : ℝ)/5, 4/5] := by
    show [(3 : ℝ), 4].map (fun x => x /
      (if Real.sqrt (sumSq [(3 : ℝ), 4]) = 0 then 1 else Real.sqrt (sumSq [(3 : ℝ), 4]))) = _
    have hs : sumSq [(3 : ℝ), 4] = 25 := by
      simp [sumSq]
      norm_num
    rw [hs, h25, if_neg (by norm_num)]
    simp
  have hw : [(3 : ℝ)/5, 4/5] ∈ embedTexts false none [[(3 : ℝ), 4]] := by
    show [(3 : ℝ)/5, 4/5] ∈ [[(3 : ℝ), 4]].map normalizeRow
    rw [List.map_cons, h34]
    simp
  exact C5_embed_normalization false none [[(3 : ℝ), 4]] [(3 : ℝ)/5, 4/5] hw

/-! ## Claim C1: idempotence of a second `build_index` run

Plan: under the spec's own collision-resistance assumption (the desired id
sets of distinct files are disjoint, and no pre-existing record carries a
desired id of a different file), the first run leaves, for every scanned
file, exactly the desired ids under that file's metadata path; the second
run then computes an empty diff for every file, so it performs no embedding
call and no collection write and rewrites every manifest entry with the
identical value. -/

theorem existingIdsIn_mem (col : List DbRec) (p : String) (x : String) :
    x ∈ existingIdsIn col p ↔ ∃ r ∈ col, r.meta.path = p ∧ r.id = x := by
  simp only [existingIdsIn, List.mem_map, List.mem_filter, beq_iff_eq]
  constructor
  · rintro ⟨r, ⟨hr, hp⟩, hx⟩
    exact ⟨r, hr, hp, hx⟩
  · rintro ⟨r, hr, hp, hx⟩
    exact ⟨r, ⟨hr, hp⟩, hx⟩

theorem newChunkRecs_path (p c : String) : ∀ r ∈ newChunkRecs p c, r.meta.path = p := by
  intro r hr
  rcases List.mem_map.1 hr with ⟨pr, -, rfl⟩
  simp [sanitizeMeta]

theorem desiredIds_mem (p c : String) (x : String) :
    x ∈ desiredIds p c ↔ ∃ r ∈ newChunkRecs p c, r.id = x := by
  simp [desiredIds]

theorem toDeleteOf_mem (col : List DbRec) (f : FileInput) (x : String) :
    x ∈ toDeleteOf col f ↔
      x ∈ existingIdsIn col f.path ∧ x ∉ desiredIds f.path f.content := by
  simp [toDeleteOf]

theorem addsOf_mem (col : List DbRec) (f : FileInput) (r : DbRec) :
    r ∈ addsOf col f ↔
      r ∈ newChunkRecs f.path f.content ∧ r.id ∉ existingIdsIn col f.path := by
  simp [addsOf]

theorem dedupById_subset (l : List DbRec) : ∀ r ∈ dedupById l, r ∈ l :=
  dedupById_forall' l (fun _ h => h)

theorem dedupById_ids_aux :
    ∀ (l acc : List DbRec) (x : String),
      (x ∈ (l.foldl (fun acc r =>
        if acc.any (fun s => s.id == r.id) then
          acc.map (fun s => if s.id == r.id then r else s)
        else acc ++ [r]) acc).map (fun r => r.id) ↔
      x ∈ acc.map (fun r => r.id) ∨ x ∈ l.map (fun r => r.id)) := by
  intro l
  induction l with
  | nil => intro acc x; simp
  | cons a t ih =>
    intro acc x
    simp only [List.foldl_cons, List.map_cons, List.mem_cons]
    rw [ih]
    by_cases hany : acc.any (fun s => s.id == a.id)
    · simp only [hany, if_pos]
      have hids : (acc.map (fun s => if s.id == a.id then a else s)).map (fun r => r.id) =
          acc.map (fun r => r.id) := by
        rw [List.map_map]
        refine List.map_congr_left ?_
        intro s _
        by_cases hs : s.id == a.id
        · simp only [Function.comp, hs, if_pos]
          exact (beq_iff_eq.1 hs).symm
        · simp only [Function.comp, hs, Bool.false_eq_true, if_false]
      rw [hids]
      rcases List.any_eq_true.1 hany with ⟨s, hs, hsid⟩
      constructor
      · intro h; tauto
      · rintro (h | h | h)
        · exact Or.inl h
        · exact Or.inl (by
            rw [h, ← beq_iff_eq.1 hsid]
            exact List.mem_map.2 ⟨s, hs, rfl⟩)
        · exact Or.inr h
    · simp only [hany, Bool.false_eq_true, if_false]
      simp only [List.map_append, List.mem_append, List.map_cons, List.map_nil,
        List.mem_singleton]
      tauto

theorem dedupById_ids (l : List DbRec) (x : String) :
    x ∈ (dedupById l).map (fun r => r.id) ↔ x ∈ l.map (fun r => r.id) := by
  have h := dedupById_ids_aux l [] x
  simpa [dedupById] using h

theorem processFile_col_noadd (st : BuildState) (f : FileInput)
    (hemp : (addsOf st.col f).isEmpty) :
    (processFile st f).col =
      st.col.filter (fun r => !(toDeleteOf st.col f).contains r.id) := by
  simp only [processFile, hemp, if_pos]

theorem processFile_col_add (st : BuildState) (f : FileInput)
    (hemp : ¬(addsOf st.col f).isEmpty) :
    (processFile st f).col =
      (st.col.filter (fun r => !(toDeleteOf st.col f).contains r.id)).filter
        (fun r => !((dedupById (addsOf st.col f)).map (fun r => r.id)).contains r.id)
      ++ dedupById (addsOf st.col f) := by
  simp only [processFile, hemp, Bool.false_eq_true, if_false]

theorem processFile_noop (st : BuildState) (f : FileInput)
    (hdel : toDeleteOf st.col f = []) (hemp : addsOf st.col f = []) :
    processFile st f = { st with
      man := setEntry st.man f.path ⟨f.mtime, desiredIds f.path f.content⟩ } := by
  have hemp' : (addsOf st.col f).isEmpty := by rw [hemp]; rfl
  simp only [processFile, hemp', if_pos, hdel]
  cases st
  simp

theorem processFile_col_cases (st : BuildState) (f : FileInput) :
    ∀ r ∈ (processFile st f).col, r ∈ st.col ∨ r ∈ newChunkRecs f.path f.content := by
  intro r hr
  by_cases hemp : (addsOf st.col f).isEmpty
  · rw [processFile_col_noadd st f hemp] at hr
    exact Or.inl (List.mem_of_mem_filter hr)
  · rw [processFile_col_add st f hemp] at hr
    rcases List.mem_append.1 hr with h | h
    · exact Or.inl (List.mem_of_mem_filter (List.mem_of_mem_filter h))
    · exact Or.inr ((addsOf_mem st.col f r).1 (dedupById_subset _ r h)).1

theorem processFile_exIds_self (st : BuildState) (f : FileInput) (x : String) :
    x ∈ existingIdsIn (processFile st f).col f.path ↔
      x ∈ desiredIds f.path f.content := by
  constructor
  · intro hx
    rcases (existingIdsIn_mem _ _ _).1 hx with ⟨r, hr, hp, hid⟩
    by_cases hemp : (addsOf st.col f).isEmpty
    · rw [processFile_col_noadd st f hemp] at hr
      rcases List.mem_filter.1 hr with ⟨hcol, hb⟩
      have hex : r.id ∈ existingIdsIn st.col f.path :=
        (existingIdsIn_mem _ _ _).2 ⟨r, hcol, hp, rfl⟩
      have hnd : r.id ∉ toDeleteOf st.col f := by simpa using hb
      subst hid
      by_contra hdes
      exact hnd ((toDeleteOf_mem st.col f r.id).2 ⟨hex, hdes⟩)
    · rw [processFile_col_add st f hemp] at hr
      rcases List.mem_append.1 hr with h | h
      · rcases List.mem_filter.1 h with ⟨h1, hb2⟩
        rcases List.mem_filter.1 h1 with ⟨hcol, hb1⟩
        have hex : r.id ∈ existingIdsIn st.col f.path :=
          (existingIdsIn_mem _ _ _).2 ⟨r, hcol, hp, rfl⟩
        have hnd : r.id ∉ toDeleteOf st.col f := by simpa using hb1
        subst hid
        by_contra hdes
        exact hnd ((toDeleteOf_mem st.col f r.id).2 ⟨hex, hdes⟩)
      · have hrec : r ∈ newChunkRecs f.path f.content :=
          ((addsOf_mem st.col f r).1 (dedupById_subset _ r h)).1
        exact (desiredIds_mem _ _ _).2 ⟨r, hrec, hid⟩
  · intro hx
    by_cases hemp : (addsOf st.col f).isEmpty
    · have hnil : addsOf st.col f = [] := by simpa using hemp
      have hex : x ∈ existingIdsIn st.col f.path := by
        rcases (desiredIds_mem _ _ _).1 hx with ⟨rec, hrec, hrid⟩
        by_contra hnex
        have hm : rec ∈ addsOf st.col f :=
          (addsOf_mem st.col f rec).2 ⟨hrec, by rw [hrid]; exact hnex⟩
        rw [hnil] at hm
        exact List.not_mem_nil rec hm
      rcases (existingIdsIn_mem _ _ _).1 hex with ⟨r, hcol, hp, hid⟩
      rw [processFile_col_noadd st f hemp]
      refine (existingIdsIn_mem _ _ _).2 ⟨r, ?_, hp, hid⟩
      refine List.mem_filter.2 ⟨hcol, ?_⟩
      have hnd : r.id ∉ toDeleteOf st.col f := by
        intro hm
        exact ((toDeleteOf_mem st.col f r.id).1 hm).2 (by rw [hid]; exact hx)
      simpa using hnd
    · rw [processFile_col_add st f hemp]
      by_cases hex : x ∈ existingIdsIn st.col f.path
      · rcases (existingIdsIn_mem _ _ _).1 hex with ⟨r, hcol, hp, hid⟩
        refine (existingIdsIn_mem _ _ _).2 ⟨r, List.mem_append.2 (Or.inl ?_), hp, hid⟩
        refine List.mem_filter.2 ⟨List.mem_filter.2 ⟨hcol, ?_⟩, ?_⟩
        · have hnd : r.id ∉ toDeleteOf st.col f := by
            intro hm
            exact ((toDeleteOf_mem st.col f r.id).1 hm).2 (by rw [hid]; exact hx)
          simpa using hnd
        · have hni : r.id ∉ (dedupById (addsOf st.col f)).map (fun r => r.id) := by
            intro hm
            rw [dedupById_ids] at hm
            rcases List.mem_map.1 hm with ⟨rec, hrecm, hrid⟩
            have hni2 := ((addsOf_mem st.col f rec).1 hrecm).2
            rw [hrid, hid] at hni2
            exact hni2 hex
          simpa using hni
      · rcases (desiredIds_mem _ _ _).1 hx with ⟨rec, hrec, hrid⟩
        have haddm : rec ∈ addsOf st.col f :=
          (addsOf_mem st.col f rec).2 ⟨hrec, by rw [hrid]; exact hex⟩
        have hmid : x ∈ (dedupById (addsOf st.col f)).map (fun r => r.id) := by
          rw [dedupById_ids]
          exact List.mem_map.2 ⟨rec, haddm, hrid⟩
        rcases List.mem_map.1 hmid with ⟨r, hrm, hid⟩
        have hrp : r.meta.path = f.path :=
          newChunkRecs_path f.path f.content r
            ((addsOf_mem st.col f r).1 (dedupById_subset _ r hrm)).1
        exact (existingIdsIn_mem _ _ _).2 ⟨r, List.mem_append.2 (Or.inr hrm), hrp, hid⟩

theorem processFile_exIds_other (st : BuildState) (g : FileInput) (p : String)
    (D : List String) (hgp : g.path ≠ p)
    (hC : ∀ r ∈ st.col, r.id ∈ D → r.meta.path = p)
    (hsub : ∀ x ∈ existingIdsIn st.col p, x ∈ D)
    (hdis : ∀ x ∈ D, x ∉ desiredIds g.path g.content) (x : String) :
    x ∈ existingIdsIn (processFile st g).col p ↔ x ∈ existingIdsIn st.col p := by
  constructor
  · intro hx
    rcases (existingIdsIn_mem _ _ _).1 hx with ⟨r, hr, hp, hid⟩
    rcases processFile_col_cases st g r hr with hold | hnew
    · exact (existingIdsIn_mem _ _ _).2 ⟨r, hold, hp, hid⟩
    · exact absurd ((newChunkRecs_path g.path g.content r hnew).symm.trans hp) hgp
  · intro hx
    rcases (existingIdsIn_mem _ _ _).1 hx with ⟨r, hr, hp, hid⟩
    have hxD : x ∈ D := hsub x hx
    have hrD : r.id ∈ D := by rw [hid]; exact hxD
    have hnd : r.id ∉ toDeleteOf st.col g := by
      intro hm
      rcases (toDeleteOf_mem st.col g r.id).1 hm with ⟨hexg, -⟩
      rcases (existingIdsIn_mem _ _ _).1 hexg with ⟨r2, hr2, hp2, hid2⟩
      have hp2p : r2.meta.path = p := hC r2 hr2 (by rw [hid2]; exact hrD)
      exact hgp (hp2.symm.trans hp2p)
    have hna : r.id ∉ (dedupById (addsOf st.col g)).map (fun s => s.id) := by
      intro hm
      rw [dedupById_ids] at hm
      rcases List.mem_map.1 hm with ⟨rec, hrecm, hrid⟩
      have hdes : rec.id ∈ desiredIds g.path g.content :=
        (desiredIds_mem _ _ _).2 ⟨rec, ((addsOf_mem st.col g rec).1 hrecm).1, rfl⟩
      rw [hrid] at hdes
      exact hdis r.id hrD hdes
    by_cases hemp : (addsOf st.col g).isEmpty
    · rw [processFile_col_noadd st g hemp]
      exact (existingIdsIn_mem _ _ _).2
        ⟨r, List.mem_filter.2 ⟨hr, by simpa using hnd⟩, hp, hid⟩
    · rw [processFile_col_add st g hemp]
      refine (existingIdsIn_mem _ _ _).2 ⟨r, List.mem_append.2 (Or.inl ?_), hp, hid⟩
      exact List.mem_filter.2 ⟨List.mem_filter.2 ⟨hr, by simpa using hnd⟩, by simpa using hna⟩

theorem run1_preserve :
    ∀ (rest : List FileInput) (st : BuildState) (p : String) (D : List String),
      (∀ g ∈ rest, g.path ≠ p) →
      (∀ g ∈ rest, ∀ x ∈ D, x ∉ desiredIds g.path g.content) →
      (∀ r ∈ st.col, r.id ∈ D → r.meta.path = p) →
      (∀ x ∈ existingIdsIn st.col p, x ∈ D) →
      ∀ x, x ∈ existingIdsIn (rest.foldl processFile st).col p ↔
        x ∈ existingIdsIn st.col p := by
  intro rest
  induction rest with
  | nil => intro st p D _ _ _ _ x; exact Iff.rfl
  | cons g t ih =>
    intro st p D hp hdis hC hsub x
    simp only [List.foldl_cons]
    have hstep := processFile_exIds_other st g p D (hp g (by simp)) hC hsub
      (hdis g (by simp))
    have hC2 : ∀ r ∈ (processFile st g).col, r.id ∈ D → r.meta.path = p := by
      intro r hr hrD
      rcases processFile_col_cases st g r hr with hold | hnew
      · exact hC r hold hrD
      · exfalso
        have hdes : r.id ∈ desiredIds g.path g.content :=
          (desiredIds_mem _ _ _).2 ⟨r, hnew, rfl⟩
        exact hdis g (by simp) r.id hrD hdes
    have hsub2 : ∀ y ∈ existingIdsIn (processFile st g).col p, y ∈ D := by
      intro y hy
      exact hsub y ((hstep y).1 hy)
    rw [ih (processFile st g) p D
      (fun g2 hg2 => hp g2 (List.mem_cons_of_mem _ hg2))
      (fun g2 hg2 => hdis g2 (List.mem_cons_of_mem _ hg2)) hC2 hsub2 x]
    exact hstep x

theorem run1_exIds :
    ∀ (rest : List FileInput) (st : BuildState),
      ((rest.map (fun f => f.path)).Nodup) →
      (∀ r ∈ st.col, ∀ g ∈ rest, r.id ∈ desiredIds g.path g.content →
        r.meta.path = g.path) →
      (∀ f ∈ rest, ∀ g ∈ rest, f.path ≠ g.path →
        ∀ x ∈ desiredIds f.path f.content, x ∉ desiredIds g.path g.content) →
      ∀ f ∈ rest, ∀ x,
        x ∈ existingIdsIn (rest.foldl processFile st).col f.path ↔
          x ∈ desiredIds f.path f.content := by
  intro rest
  induction rest with
  | nil => intro st _ _ _ f hf; exact absurd hf (List.not_mem_nil f)
  | cons g t ih =>
    intro st hnd hH1 hH2 f hf x
    simp only [List.map_cons, List.nodup_cons] at hnd
    obtain ⟨hgnot, hndt⟩ := hnd
    have hH1n : ∀ r ∈ (processFile st g).col, ∀ g2 ∈ t,
        r.id ∈ desiredIds g2.path g2.content → r.meta.path = g2.path := by
      intro r hr g2 hg2 hrd
      rcases processFile_col_cases st g r hr with hold | hnew
      · exact hH1 r hold g2 (List.mem_cons_of_mem _ hg2) hrd
      · exfalso
        have hneq : g.path ≠ g2.path := by
          intro he
          exact hgnot (by rw [he]; exact List.mem_map.2 ⟨g2, hg2, rfl⟩)
        have hgd : r.id ∈ desiredIds g.path g.content :=
          (desiredIds_mem _ _ _).2 ⟨r, hnew, rfl⟩
        exact hH2 g (by simp) g2 (List.mem_cons_of_mem _ hg2) hneq r.id hgd hrd
    simp only [List.foldl_cons]
    rcases List.mem_cons.1 hf with rfl | hft
    · have hself := processFile_exIds_self st f
      have hC : ∀ r ∈ (processFile st f).col,
          r.id ∈ desiredIds f.path f.content → r.meta.path = f.path := by
        intro r hr hrd
        rcases processFile_col_cases st f r hr with hold | hnew
        · exact hH1 r hold f (by simp) hrd
        · exact newChunkRecs_path f.path f.content r hnew
      have hpres := run1_preserve t (processFile st f) f.path
        (desiredIds f.path f.content)
        (fun g2 hg2 he => hgnot (List.mem_map.2 ⟨g2, hg2, he⟩))
        (fun g2 hg2 y hy hy2 => hH2 f (by simp) g2 (List.mem_cons_of_mem _ hg2)
          (fun he => hgnot (List.mem_map.2 ⟨g2, hg2, he.symm⟩)) y hy hy2)
        hC
        (fun y hy => (hself y).1 hy)
      rw [hpres x]
      exact hself x
    · exact ih (processFile st g) hndt hH1n
        (fun a ha b hb => hH2 a (List.mem_cons_of_mem _ ha) b (List.mem_cons_of_mem _ hb))
        f hft x

theorem setEntry_entryAt_self (m : Manifest) (k : String) (v : ManEntry) :
    entryAt (setEntry m k v) k = some v := by
  induction m with
  | nil => simp [setEntry, entryAt]
  | cons e t ih =>
    obtain ⟨k1, v1⟩ := e
    by_cases he : k1 == k
    · simp [setEntry, entryAt, he]
    · simp [setEntry, entryAt, he, ih]

theorem setEntry_entryAt_other (m : Manifest) (k k2 : String) (v : ManEntry)
    (hne : k2 ≠ k) : entryAt (setEntry m k v) k2 = entryAt m k2 := by
  induction m with
  | nil => simp [setEntry, entryAt, hne.symm]
  | cons e t ih =>
    obtain ⟨k1, v1⟩ := e
    by_cases he : k1 == k
    · have hk1 : k1 = k := beq_iff_eq.1 he
      subst hk1
      simp [setEntry, entryAt, hne.symm]
    · simp [setEntry, entryAt, he, ih]

theorem processFile_entryAt_other (st : BuildState) (g : FileInput) (k : String)
    (hne : k ≠ g.path) : entryAt (processFile st g).man k = entryAt st.man k := by
  rw [processFile_man]
  exact setEntry_entryAt_other st.man g.path k _ hne

theorem foldl_entryAt_frozen :
    ∀ (rest : List FileInput) (st : BuildState) (k : String),
      (∀ g ∈ rest, k ≠ g.path) →
      entryAt (rest.foldl processFile st).man k = entryAt st.man k := by
  intro rest
  induction rest with
  | nil => intro st k _; rfl
  | cons g t ih =>
    intro st k h
    simp only [List.foldl_cons]
    rw [ih (processFile st g) k (fun g2 hg2 => h g2 (List.mem_cons_of_mem _ hg2))]
    exact processFile_entryAt_other st g k (h g (by simp))

theorem run1_entryAt :
    ∀ (rest : List FileInput) (st : BuildState),
      ((rest.map (fun f => f.path)).Nodup) →
      ∀ f ∈ rest, entryAt (rest.foldl processFile st).man f.path =
        some ⟨f.mtime, desiredIds f.path f.content⟩ := by
  intro rest
  induction rest with
  | nil => intro st _ f hf; exact absurd hf (List.not_mem_nil f)
  | cons g t ih =>
    intro st hnd f hf
    simp only [List.map_cons, List.nodup_cons] at hnd
    obtain ⟨hgnot, hndt⟩ := hnd
    simp only [List.foldl_cons]
    rcases List.mem_cons.1 hf with rfl | hft
    · rw [foldl_entryAt_frozen t (processFile st f) f.path
        (fun g2 hg2 he => hgnot (by rw [he]; exact List.mem_map.2 ⟨g2, hg2, rfl⟩))]
      rw [processFile_man]
      exact setEntry_entryAt_self st.man f.path _
    · exact ih (processFile st g) hndt f hft

theorem setEntry_id (m : Manifest) (k : String) (v : ManEntry)
    (h : entryAt m k = some v) : setEntry m k v = m := by
  induction m with
  | nil => simp [entryAt] at h
  | cons e t ih =>
    obtain ⟨k1, v1⟩ := e
    by_cases he : k1 == k
    · have hk1 : k1 = k := beq_iff_eq.1 he
      subst hk1
      simp only [entryAt] at h
      rw [if_pos (by simp)] at h
      injection h with h2
      subst h2
      simp [setEntry]
    · simp only [entryAt] at h
      rw [if_neg he] at h
      simp [setEntry, he, ih h]

theorem entryAt_filter (m : Manifest) (q : String → Bool) (k : String)
    (hk : q k = true) :
    entryAt (m.filter (fun e => q e.1)) k = entryAt m k := by
  induction m with
  | nil => rfl
  | cons e t ih =>
    obtain ⟨k1, v1⟩ := e
    rw [List.filter_cons]
    by_cases he : k1 == k
    · have hk1 : k1 = k := beq_iff_eq.1 he
      subst hk1
      simp [hk, entryAt]
    · by_cases hq : q k1
      · simp [hq, entryAt, he, ih]
      · simp [hq, entryAt, he, ih]

theorem buildIndex_man_keys (files : List FileInput) (col0 : List DbRec)
    (man0 : Manifest) :
    ∀ k ∈ manifestKeys (buildIndex files col0 man0).man,
      k ∈ files.map (fun f => f.path) := by
  intro k hk
  rw [buildIndex_man] at hk
  rcases List.mem_map.1 hk with ⟨e, he, rfl⟩
  rcases List.mem_filter.1 he with ⟨hem, hq⟩
  have hnr : e.1 ∉ removedPaths files man0 := by simpa using hq
  have hkeys := foldl_man_keys files ⟨col0, man0, [], [], [], []⟩ e.1
    (List.mem_map.2 ⟨e, hem, rfl⟩)
  by_cases hpaths : e.1 ∈ files.map (fun f => f.path)
  · exact hpaths
  · exfalso
    apply hnr
    rcases hkeys with h | h
    · exact List.mem_filter.2 ⟨List.mem_dedup.2 h, by simpa using hpaths⟩
    · exact absurd h hpaths

theorem removedPaths_nil (files : List FileInput) (man : Manifest)
    (h : ∀ k ∈ manifestKeys man, k ∈ files.map (fun f => f.path)) :
    removedPaths files man = [] := by
  rw [removedPaths, List.filter_eq_nil_iff]
  intro k hk
  have hkm : k ∈ manifestKeys man := List.mem_dedup.1 hk
  simp [h k hkm]

theorem foldl_noop :
    ∀ (rest : List FileInput) (st : BuildState),
      (∀ f ∈ rest, toDeleteOf st.col f = [] ∧ addsOf st.col f = [] ∧
        entryAt st.man f.path = some ⟨f.mtime, desiredIds f.path f.content⟩) →
      rest.foldl processFile st = st := by
  intro rest
  induction rest with
  | nil => intro st _; rfl
  | cons f t ih =>
    intro st h
    obtain ⟨hdel, hemp, hent⟩ := h f (by simp)
    have hstep : processFile st f = st := by
      rw [processFile_noop st f hdel hemp, setEntry_id st.man f.path _ hent]
    simp only [List.foldl_cons, hstep]
    exact ih st (fun g hg => h g (List.mem_cons_of_mem _ hg))

theorem not_mem_removedPaths (files : List FileInput) (man0 : Manifest)
    (p : String) (hp : p ∈ files.map (fun f => f.path)) :
    p ∉ removedPaths files man0 := by
  intro hm
  rcases List.mem_filter.1 hm with ⟨-, hq⟩
  have hnp : p ∉ files.map (fun f => f.path) := by simpa using hq
  exact hnp hp

theorem buildIndex_exIds (files : List FileInput) (col0 : List DbRec)
    (man0 : Manifest) (p : String) (hp : p ∈ files.map (fun f => f.path))
    (x : String) :
    x ∈ existingIdsIn (buildIndex files col0 man0).col p ↔
      x ∈ existingIdsIn
        (files.foldl processFile ⟨col0, man0, [], [], [], []⟩).col p := by
  have hnr : p ∉ removedPaths files man0 := not_mem_removedPaths files man0 p hp
  rw [buildIndex_col]
  constructor
  · intro hx
    rcases (existingIdsIn_mem _ _ _).1 hx with ⟨r, hr, hpp, hid⟩
    exact (existingIdsIn_mem _ _ _).2 ⟨r, List.mem_of_mem_filter hr, hpp, hid⟩
  · intro hx
    rcases (existingIdsIn_mem _ _ _).1 hx with ⟨r, hr, hpp, hid⟩
    refine (existingIdsIn_mem _ _ _).2 ⟨r, List.mem_filter.2 ⟨hr, ?_⟩, hpp, hid⟩
    rw [hpp]
    simpa using hnr

theorem buildIndex_entryAt (files : List FileInput) (col0 : List DbRec)
    (man0 : Manifest) (k : String) (hk : k ∈ files.map (fun f => f.path)) :
    entryAt (buildIndex files col0 man0).man k =
      entryAt (files.foldl processFile ⟨col0, man0, [], [], [], []⟩).man k := by
  rw [buildIndex_man]
  exact entryAt_filter _ (fun s => !(removedPaths files man0).contains s) k
    (by simpa using not_mem_removedPaths files man0 k hk)

/-- Claim C1: sync is idempotent. For every corpus whose scanned paths are
distinct, under the spec's collision-resistance assumption on chunk
identities (desired id sets of files with distinct paths are disjoint) and
an initial collection in which any record carrying a desired id of a
current file is filed under that file's path, a second `build_index` run on
the unchanged corpus performs zero embedding calls and zero collection
writes (no adds, no deletes by id, no deletes by path) and leaves the
manifest content identical to what the first run produced. -/
theorem C1_build_index_idempotent (files : List FileInput) (col0 : List DbRec)
    (man0 : Manifest)
    (hpaths : (files.map (fun f => f.path)).Nodup)
    (hdisj : ∀ f ∈ files, ∀ g ∈ files, f.path ≠ g.path →
      ∀ x ∈ desiredIds f.path f.content, x ∉ desiredIds g.path g.content)
    (hcol0 : ∀ r ∈ col0, ∀ f ∈ files, r.id ∈ desiredIds f.path f.content →
      r.meta.path = f.path) :
    (buildIndex files (buildIndex files col0 man0).col
        (buildIndex files col0 man0).man).embedCalls = [] ∧
    (buildIndex files (buildIndex files col0 man0).col
        (buildIndex files col0 man0).man).addCalls = [] ∧
    (buildIndex files (buildIndex files col0 man0).col
        (buildIndex files col0 man0).man).deleteIdCalls = [] ∧
    (buildIndex files (buildIndex files col0 man0).col
        (buildIndex files col0 man0).man).deletePathCalls = [] ∧
    (buildIndex files (buildIndex files col0 man0).col
        (buildIndex files col0 man0).man).man = (buildIndex files col0 man0).man := by
  have hfold1 : ∀ f ∈ files, ∀ x,
      x ∈ existingIdsIn
        (files.foldl processFile ⟨col0, man0, [], [], [], []⟩).col f.path ↔
        x ∈ desiredIds f.path f.content :=
    run1_exIds files ⟨col0, man0, [], [], [], []⟩ hpaths hcol0 hdisj
  have hr1ex : ∀ f ∈ files, ∀ x,
      x ∈ existingIdsIn (buildIndex files col0 man0).col f.path ↔
        x ∈ desiredIds f.path f.content := by
    intro f hf x
    rw [buildIndex_exIds files col0 man0 f.path (List.mem_map.2 ⟨f, hf, rfl⟩) x]
    exact hfold1 f hf x
  have hr1ent : ∀ f ∈ files,
      entryAt (buildIndex files col0 man0).man f.path =
        some ⟨f.mtime, desiredIds f.path f.content⟩ := by
    intro f hf
    rw [buildIndex_entryAt files col0 man0 f.path (List.mem_map.2 ⟨f, hf, rfl⟩)]
    exact run1_entryAt files ⟨col0, man0, [], [], [], []⟩ hpaths f hf
  have hdel2 : ∀ f ∈ files, toDeleteOf (buildIndex files col0 man0).col f = [] := by
    intro f hf
    rw [toDeleteOf, List.filter_eq_nil_iff]
    intro i hi
    have hdes : i ∈ desiredIds f.path f.content := (hr1ex f hf i).1 hi
    simp [hdes]
  have hadd2 : ∀ f ∈ files, addsOf (buildIndex files col0 man0).col f = [] := by
    intro f hf
    rw [addsOf, List.filter_eq_nil_iff]
    intro rec hrec
    have hdes : rec.id ∈ desiredIds f.path f.content :=
      (desiredIds_mem _ _ _).2 ⟨rec, hrec, rfl⟩
    have hex : rec.id ∈ existingIdsIn (buildIndex files col0 man0).col f.path :=
      (hr1ex f hf rec.id).2 hdes
    revert hex
    generalize existingIdsIn (buildIndex files col0 man0).col f.path = L
    intro hex
    simp [hex]
  have hfold2 : files.foldl processFile
      ⟨(buildIndex files col0 man0).col, (buildIndex files col0 man0).man,
        [], [], [], []⟩ =
      ⟨(buildIndex files col0 man0).col, (buildIndex files col0 man0).man,
        [], [], [], []⟩ := by
    apply foldl_noop
    intro f hf
    exact ⟨hdel2 f hf, hadd2 f hf, hr1ent f hf⟩
  have hrem2 : removedPaths files (buildIndex files col0 man0).man = [] :=
    removedPaths_nil files _ (buildIndex_man_keys files col0 man0)
  refine ⟨?_, ?_, ?_, ?_, ?_⟩
  · rw [buildIndex_embedCalls, hfold2]
  · rw [buildIndex_addCalls, hfold2]
  · rw [buildIndex_deleteIdCalls, hfold2]
  · rw [buildIndex_deletePathCalls, hfold2, hrem2]
    rfl
  · rw [buildIndex_man, hfold2, hrem2]
    simp [List.filter_eq_self]

theorem C1_build_index_idempotent_witness :
    ((([⟨"data/docs/a.md", "# T\nB", 1⟩] : List FileInput).map
        (fun f => f.path)).Nodup ∧
      (∀ f ∈ ([⟨"data/docs/a.md", "# T\nB", 1⟩] : List FileInput),
        ∀ g ∈ ([⟨"data/docs/a.md", "# T\nB", 1⟩] : List FileInput),
        f.path ≠ g.path →
        ∀ x ∈ desiredIds f.path f.content, x ∉ desiredIds g.path g.content) ∧
      (∀ r ∈ ([] : List DbRec),
        ∀ f ∈ ([⟨"data/docs/a.md", "# T\nB", 1⟩] : List FileInput),
        r.id ∈ desiredIds f.path f.content → r.meta.path = f.path)) ∧
    ((buildIndex [⟨"data/docs/a.md", "# T\nB", 1⟩]
        (buildIndex [⟨"data/docs/a.md", "# T\nB", 1⟩] [] []).col
        (buildIndex [⟨"data/docs/a.md", "# T\nB", 1⟩] [] []).man).embedCalls = [] ∧
      (buildIndex [⟨"data/docs/a.md", "# T\nB", 1⟩]
        (buildIndex [⟨"data/docs/a.md", "# T\nB", 1⟩] [] []).col
        (buildIndex [⟨"data/docs/a.md", "# T\nB", 1⟩] [] []).man).addCalls = [] ∧
      (buildIndex [⟨"data/docs/a.md", "# T\nB", 1⟩]
        (buildIndex [⟨"data/docs/a.md", "# T\nB", 1⟩] [] []).col
        (buildIndex [⟨"data/docs/a.md", "# T\nB", 1⟩] [] []).man).deleteIdCalls = [] ∧
      (buildIndex [⟨"data/docs/a.md", "# T\nB", 1⟩]
        (buildIndex [⟨"data/docs/a.md", "# T\nB", 1⟩] [] []).col
        (buildIndex [⟨"data/docs/a.md", "# T\nB", 1⟩] [] []).man).deletePathCalls = [] ∧
      (buildIndex [⟨"data/docs/a.md", "# T\nB", 1⟩]
        (buildIndex [⟨"data/docs/a.md", "# T\nB", 1⟩] [] []).col
        (buildIndex [⟨"data/docs/a.md", "# T\nB", 1⟩] [] []).man).man =
        (buildIndex [⟨"data/docs/a.md", "# T\nB", 1⟩] [] []).man) :=
  ⟨⟨by decide, by decide, by decide⟩,
    C1_build_index_idempotent [⟨"data/docs/a.md", "# T\nB", 1⟩] [] []
      (by decide) (by decide) (by decide)⟩
